import Mathlib

/-!
Change detection core of the auto-documentation bot.

A shallow embedding of `src/src/utils/diff.js` (`detectChanges`, `formatSummary`)
together with the fragment of the JavaScript runtime it relies on
(`Array.prototype.join`, the insertion-ordered `Map`). JavaScript strings are taken as
Lean strings: sequences of characters compared character by character.
-/

namespace DocBot

/-! ## Data model -/

/-- One function record as produced by `extractFunctions` in `src/src/ast/analyzer.js`:
`{ name, params, type }`. -/
structure FunctionRecord where
  name : String
  params : List String
  type : String
  deriving DecidableEq, Repr

/-- An entry of the `modified` bucket: `{ name, oldParams, newParams }`. -/
structure ModifiedEntry where
  name : String
  oldParams : List String
  newParams : List String
  deriving DecidableEq, Repr

/-- The object returned by `detectChanges`: `{ added, removed, modified }`. -/
structure ChangeSet where
  added : List FunctionRecord
  removed : List FunctionRecord
  modified : List ModifiedEntry
  deriving DecidableEq, Repr

/-! ## JavaScript runtime fragment -/

/-- `Array.prototype.join(sep)` on an array of strings: the elements in order with
`sep` between consecutive elements, the empty string for the empty array. -/
def jsJoin (sep : String) : List String → String
  | [] => ""
  | [x] => x
  | x :: y :: rest => x ++ sep ++ jsJoin sep (y :: rest)

/-- `Map.prototype.set(k, v)` on an insertion-ordered map kept as an association
list: an existing key keeps its position and takes the new value, a fresh key is
appended at the end. -/
def mapSet {V : Type} : List (String × V) → String → V → List (String × V)
  | [], k, v => [(k, v)]
  | (k', v') :: rest, k, v =>
    if k' = k then (k', v) :: rest else (k', v') :: mapSet rest k v

/-- `new Map(entries)`: the entries are `set` one after the other into an empty map. -/
def jsMap {V : Type} (entries : List (String × V)) : List (String × V) :=
  entries.foldl (fun m e => mapSet m e.1 e.2) []

/-- `Map.prototype.has(k)`. -/
def mapHas {V : Type} (m : List (String × V)) (k : String) : Bool :=
  m.any (fun e => e.1 = k)

/-- `Map.prototype.get(k)`; `none` stands for `undefined`. -/
def mapGet {V : Type} : List (String × V) → String → Option V
  | [], _ => none
  | (k', v') :: rest, k => if k' = k then some v' else mapGet rest k

/-- The keys of a map, in iteration order. -/
def mapKeys {V : Type} (m : List (String × V)) : List String := m.map Prod.fst

/-! ## `detectChanges` -/

/-- The body of the first loop of `detectChanges` (`for (const [name, newFn] of newMap)`),
acting on the buckets built so far. When `oldMap.has(name)` holds, `oldMap.get(name)` is
a record; the `none` arm is never taken and leaves the buckets as they are. -/
def addedModifiedStep (oldMap : List (String × FunctionRecord)) (acc : ChangeSet)
    (e : String × FunctionRecord) : ChangeSet :=
  if !mapHas oldMap e.1 then
    { acc with added := acc.added ++ [e.2] }
  else
    match mapGet oldMap e.1 with
    | some oldFn =>
      let oldParams := jsJoin ", " oldFn.params
      let newParams := jsJoin ", " e.2.params
      if oldParams ≠ newParams then
        { acc with modified := acc.modified ++
            [{ name := e.1, oldParams := oldFn.params, newParams := e.2.params }] }
      else acc
    | none => acc

/-- The body of the second loop of `detectChanges` (`for (const [name, oldFn] of oldMap)`). -/
def removedStep (newMap : List (String × FunctionRecord)) (acc : ChangeSet)
    (e : String × FunctionRecord) : ChangeSet :=
  if !mapHas newMap e.1 then
    { acc with removed := acc.removed ++ [e.2] }
  else acc

/-- `detectChanges(oldFunctions, newFunctions)` of `src/src/utils/diff.js`. -/
def detectChanges (oldFunctions newFunctions : List FunctionRecord) : ChangeSet :=
  let oldMap := jsMap (oldFunctions.map (fun fn => (fn.name, fn)))
  let newMap := jsMap (newFunctions.map (fun fn => (fn.name, fn)))
  let acc : ChangeSet := { added := [], removed := [], modified := [] }
  let acc := newMap.foldl (addedModifiedStep oldMap) acc
  let acc := oldMap.foldl (removedStep newMap) acc
  acc

/-- The keyed entries handed to `new Map(...)`: `fns.map((fn) => [fn.name, fn])`. -/
def nameEntries (fns : List FunctionRecord) : List (String × FunctionRecord) :=
  fns.map (fun fn => (fn.name, fn))

/-- What one iteration of the first loop appends to `modified` for an entry of `newMap`
whose key is in `oldMap`: the entry when the joined parameter strings differ, nothing
otherwise. -/
def modifiedOf (oldMap : List (String × FunctionRecord)) (e : String × FunctionRecord) :
    Option ModifiedEntry :=
  match mapGet oldMap e.1 with
  | some oldFn =>
    if jsJoin ", " oldFn.params ≠ jsJoin ", " e.2.params then
      some { name := e.1, oldParams := oldFn.params, newParams := e.2.params }
    else none
  | none => none

/-! ## `formatSummary` -/

/-- The template literal used for added and removed
records, `name(p1, p2, ...)`. -/
def renderFn (fn : FunctionRecord) : String :=
  fn.name ++ "(" ++ jsJoin ", " fn.params ++ ")"

/-- The template literal used for modified entries,
`name(old...) → name(new...)`. -/
def renderModified (fn : ModifiedEntry) : String :=
  fn.name ++ "(" ++ jsJoin ", " fn.oldParams ++ ") → " ++
    fn.name ++ "(" ++ jsJoin ", " fn.newParams ++ ")"

def addedMarker : String := "✅ Added: "
def removedMarker : String := "❌ Removed: "
def modifiedMarker : String := "✏️ Modified: "
def noChangesSentence : String := "No functional changes detected."

/-- The array `lines` of `formatSummary` just before the final `join`. -/
def summaryLines (changes : ChangeSet) : List String :=
  let lines : List String := []
  let lines :=
    if changes.added.length > 0 then
      lines ++ [addedMarker ++ jsJoin ", " (changes.added.map renderFn)]
    else lines
  let lines :=
    if changes.removed.length > 0 then
      lines ++ [removedMarker ++ jsJoin ", " (changes.removed.map renderFn)]
    else lines
  let lines :=
    if changes.modified.length > 0 then
      lines ++ [modifiedMarker ++ jsJoin ", " (changes.modified.map renderModified)]
    else lines
  let lines :=
    if lines.length = 0 then lines ++ [noChangesSentence] else lines
  lines

/-- `formatSummary(changes)` of `src/src/utils/diff.js`. -/
def formatSummary (changes : ChangeSet) : String :=
  jsJoin "\n" (summaryLines changes)

/-- The line pushed for a non-empty `added` bucket. -/
def addedLine (changes : ChangeSet) : String :=
  addedMarker ++ jsJoin ", " (changes.added.map renderFn)

/-- The line pushed for a non-empty `removed` bucket. -/
def removedLine (changes : ChangeSet) : String :=
  removedMarker ++ jsJoin ", " (changes.removed.map renderFn)

/-- The line pushed for a non-empty `modified` bucket. -/
def modifiedLine (changes : ChangeSet) : String :=
  modifiedMarker ++ jsJoin ", " (changes.modified.map renderModified)

/-- One line per non-empty bucket, in the order added, removed, modified. -/
def bucketLines (changes : ChangeSet) : List String :=
  (if changes.added = [] then [] else [addedLine changes]) ++
  (if changes.removed = [] then [] else [removedLine changes]) ++
  (if changes.modified = [] then [] else [modifiedLine changes])

/-- The lines a summary is made of: the bucket lines, or the fixed sentence alone when
every bucket is empty. -/
def expectedLines (changes : ChangeSet) : List String :=
  if changes.added = [] ∧ changes.removed = [] ∧ changes.modified = [] then
    [noChangesSentence]
  else bucketLines changes

/-- The first character of a text, if any. -/
def firstChar (s : String) : Option Char := s.data.head?

/-- The pieces of a character sequence between line feeds, as `text.split("\n")` gives
them: a text without a line feed is one piece. -/
def splitLines : List Char → List (List Char)
  | [] => [[]]
  | ch :: rest =>
    if ch = '\n' then [] :: splitLines rest
    else
      match splitLines rest with
      | [] => [[ch]]
      | l :: ls => (ch :: l) :: ls

/-- The lines of a text. -/
def textLines (s : String) : List String := (splitLines s.data).map String.mk

/-- How many of the three buckets are non-empty. -/
def nonEmptyBuckets (c : ChangeSet) : Nat :=
  (if c.added = [] then 0 else 1) + (if c.removed = [] then 0 else 1) +
    (if c.modified = [] then 0 else 1)

/-- No line feed in the name or in a parameter string of a record. -/
def recordNewlineFree (f : FunctionRecord) : Prop :=
  '\n' ∉ f.name.data ∧ ∀ p ∈ f.params, '\n' ∉ p.data

/-- No line feed in the name or in a parameter string of a modified entry. -/
def entryNewlineFree (e : ModifiedEntry) : Prop :=
  '\n' ∉ e.name.data ∧ (∀ p ∈ e.oldParams, '\n' ∉ p.data) ∧ (∀ p ∈ e.newParams, '\n' ∉ p.data)

/-- No name and no parameter string of the change set holds a line feed. -/
def newlineFree (c : ChangeSet) : Prop :=
  (∀ f ∈ c.added, recordNewlineFree f) ∧ (∀ f ∈ c.removed, recordNewlineFree f) ∧
    (∀ e ∈ c.modified, entryNewlineFree e)

/-- The part of a record a summary shows: name and parameter list (not the `type`). -/
def signature (f : FunctionRecord) : String × List String := (f.name, f.params)

/-- A name that does not hold the opening bracket which ends it in a rendering. -/
def nameOk (s : String) : Prop := '(' ∉ s.data

/-- A parameter string that is not empty and holds neither the comma of the separator
nor the closing bracket which ends the parameter list in a rendering. -/
def paramOk (p : String) : Prop := p.data ≠ [] ∧ ',' ∉ p.data ∧ ')' ∉ p.data

def recordOk (f : FunctionRecord) : Prop := nameOk f.name ∧ ∀ p ∈ f.params, paramOk p

def entryOk (e : ModifiedEntry) : Prop :=
  nameOk e.name ∧ (∀ p ∈ e.oldParams, paramOk p) ∧ (∀ p ∈ e.newParams, paramOk p)

/-- Every name and parameter string of the change set is free of the delimiters of the
summary format. -/
def delimiterFree (c : ChangeSet) : Prop :=
  (∀ f ∈ c.added, recordOk f) ∧ (∀ f ∈ c.removed, recordOk f) ∧ (∀ e ∈ c.modified, entryOk e)

/-- What follows the `removed` line in a summary: nothing, or a line feed and the
`modified` line. -/
def modifiedTail (c : ChangeSet) : List Char :=
  if c.modified = [] then [] else '\n' :: (modifiedLine c).data

/-- What follows the `added` line in a summary. -/
def removedTail (c : ChangeSet) : List Char :=
  if c.removed = [] then modifiedTail c
  else '\n' :: ((removedLine c).data ++ modifiedTail c)

/-! ## Sample data -/

/-- The records `extractFunctions` yields for `src/samples/old.js`. -/
def sampleOld : List FunctionRecord :=
  [ { name := "greetUser", params := ["name"], type := "FunctionDeclaration" },
    { name := "getUser", params := ["id"], type := "FunctionDeclaration" },
    { name := "calculateTotal", params := ["items"], type := "FunctionDeclaration" },
    { name := "formatDate", params := ["date"], type := "ArrowFunctionExpression" },
    { name := "validateEmail", params := ["email"], type := "FunctionDeclaration" } ]

/-- The records `extractFunctions` yields for `src/samples/new.js`. -/
def sampleNew : List FunctionRecord :=
  [ { name := "greetUser", params := ["name", "greeting"], type := "FunctionDeclaration" },
    { name := "calculateTotal", params := ["items"], type := "FunctionDeclaration" },
    { name := "formatDate", params := ["date", "locale"], type := "ArrowFunctionExpression" },
    { name := "validateEmail", params := ["email"], type := "FunctionDeclaration" },
    { name := "loginUser", params := ["email", "password"], type := "FunctionDeclaration" },
    { name := "logoutUser", params := [], type := "ArrowFunctionExpression" } ]

/-- The first argument of the JSDoc `@example` of `detectChanges`; the example records
carry no `type`, rendered here as the empty tag. -/
def docOld : List FunctionRecord :=
  [ { name := "foo", params := ["a"], type := "" } ]

/-- The second argument of the JSDoc `@example` of `detectChanges`. -/
def docNew : List FunctionRecord :=
  [ { name := "foo", params := ["a", "b"], type := "" },
    { name := "bar", params := [], type := "" } ]

/-- A copy of the JSDoc `@example` record `foo(a)` tagged with a declaration kind. -/
def docOldArrow : List FunctionRecord :=
  [ { name := "foo", params := ["a"], type := "ArrowFunctionExpression" } ]

/-- The all-empty result `{ added: [], removed: [], modified: [] }`. -/
def noChanges : ChangeSet := { added := [], removed := [], modified := [] }

/-- One added function whose only parameter string holds a line feed. -/
def newlineChangeSet : ChangeSet :=
  { added := [{ name := "f", params := ["a\nb"], type := "FunctionDeclaration" }],
    removed := [], modified := [] }

/-- The change set `detectChanges` returns on the sample files. -/
def sampleChanges : ChangeSet :=
  { added := [{ name := "loginUser", params := ["email", "password"],
                type := "FunctionDeclaration" },
              { name := "logoutUser", params := [], type := "ArrowFunctionExpression" }],
    removed := [{ name := "getUser", params := ["id"], type := "FunctionDeclaration" }],
    modified := [{ name := "greetUser", oldParams := ["name"],
                   newParams := ["name", "greeting"] },
                 { name := "formatDate", oldParams := ["date"],
                   newParams := ["date", "locale"] }] }

/-- One added function `f` with the single parameter string `"a, b"`. -/
def ambiguousOne : ChangeSet :=
  { added := [{ name := "f", params := ["a, b"], type := "FunctionDeclaration" }],
    removed := [], modified := [] }

/-- One added function `f` with the two parameter strings `"a"` and `"b"`. -/
def ambiguousTwo : ChangeSet :=
  { added := [{ name := "f", params := ["a", "b"], type := "FunctionDeclaration" }],
    removed := [], modified := [] }

/-- The change set of the JSDoc `@example` of `detectChanges`. -/
def docChanges : ChangeSet :=
  { added := [{ name := "bar", params := [], type := "" }],
    removed := [],
    modified := [{ name := "foo", oldParams := ["a"], newParams := ["a", "b"] }] }

/-- Old snapshot: `foo` with the single parameter string `"a, b"`. -/
def commaOld : List FunctionRecord :=
  [ { name := "foo", params := ["a, b"], type := "FunctionDeclaration" } ]

/-- New snapshot: `foo` with the two parameter strings `"a"` and `"b"`. -/
def commaNew : List FunctionRecord :=
  [ { name := "foo", params := ["a", "b"], type := "FunctionDeclaration" } ]

/-- A parameter string as the AST analyzer renders it: not empty and without a comma. -/
def commaFree (p : String) : Prop := p.data ≠ [] ∧ ',' ∉ p.data

/-! ## Repeated names -/

/-- The names of a list without repetition, each at the place of its first occurrence. -/
def firstOccurrences : List String → List String
  | [] => []
  | n :: rest => n :: (firstOccurrences rest).filter (fun x => x ≠ n)

/-- The last record of a list that bears the given name. -/
def lastRecord (fns : List FunctionRecord) (n : String) : Option FunctionRecord :=
  fns.reverse.find? (fun f => f.name = n)

/-- An input after every earlier occurrence of a repeated name is deleted, the surviving
(last) record standing where the name first occurred. -/
def lastWins (fns : List FunctionRecord) : List FunctionRecord :=
  (firstOccurrences (fns.map FunctionRecord.name)).filterMap (lastRecord fns)

/-- The number of names the two inputs have in common, counted on the new side. -/
def commonCount (oldFunctions newFunctions : List FunctionRecord) : Nat :=
  (newFunctions.filter
    (fun f => decide (f.name ∈ oldFunctions.map FunctionRecord.name))).length

/-- A new snapshot that declares `helper` twice, around `run`. -/
def repeatedNew : List FunctionRecord :=
  [ { name := "helper", params := ["x"], type := "FunctionDeclaration" },
    { name := "run", params := [], type := "FunctionDeclaration" },
    { name := "helper", params := ["x", "y"], type := "ArrowFunctionExpression" } ]

/-- An old snapshot that declares `run` twice. -/
def repeatedOld : List FunctionRecord :=
  [ { name := "run", params := ["a"], type := "FunctionDeclaration" },
    { name := "run", params := [], type := "FunctionDeclaration" } ]

/-! ## The insertion-ordered map -/

section MapLemmas

variable {V W : Type}

theorem mapHas_iff (m : List (String × V)) (k : String) :
    mapHas m k = true ↔ k ∈ mapKeys m := by
  induction m with
  | nil => simp [mapHas, mapKeys]
  | cons e rest ih =>
    simp only [mapHas, mapKeys, List.any_cons, List.map_cons, List.mem_cons,
      Bool.or_eq_true, decide_eq_true_eq] at ih ⊢
    rw [ih]
    constructor
    · rintro (h | h)
      · exact Or.inl h.symm
      · exact Or.inr h
    · rintro (h | h)
      · exact Or.inl h.symm
      · exact Or.inr h

theorem mapHas_false_iff (m : List (String × V)) (k : String) :
    mapHas m k = false ↔ k ∉ mapKeys m := by
  rw [← mapHas_iff]; simp

theorem mapSet_of_not_mem (m : List (String × V)) (k : String) (v : V)
    (h : k ∉ mapKeys m) : mapSet m k v = m ++ [(k, v)] := by
  induction m with
  | nil => rfl
  | cons e rest ih =>
    obtain ⟨k', v'⟩ := e
    simp only [mapKeys, List.map_cons, List.mem_cons, not_or] at h
    have hne : ¬ k' = k := fun hh => h.1 hh.symm
    simp only [mapSet, hne, if_false, List.cons_append]
    rw [ih h.2]

theorem mapKeys_mapSet_of_mem (m : List (String × V)) (k : String) (v : V)
    (h : k ∈ mapKeys m) : mapKeys (mapSet m k v) = mapKeys m := by
  induction m with
  | nil => simp [mapKeys] at h
  | cons e rest ih =>
    obtain ⟨k', v'⟩ := e
    by_cases hk : k' = k
    · simp [mapSet, hk, mapKeys]
    · have hmem : k ∈ mapKeys rest := by
        simp only [mapKeys, List.map_cons, List.mem_cons] at h
        rcases h with h | h
        · exact absurd h.symm hk
        · exact h
      have := ih hmem
      simp only [mapKeys] at this ⊢
      simp [mapSet, hk, this]

theorem mapKeys_mapSet (m : List (String × V)) (k : String) (v : V) :
    mapKeys (mapSet m k v) = if k ∈ mapKeys m then mapKeys m else mapKeys m ++ [k] := by
  by_cases h : k ∈ mapKeys m
  · rw [if_pos h, mapKeys_mapSet_of_mem m k v h]
  · rw [if_neg h, mapSet_of_not_mem m k v h]; simp [mapKeys]

theorem mem_mapKeys_mapSet (m : List (String × V)) (k : String) (v : V) (x : String) :
    x ∈ mapKeys (mapSet m k v) ↔ x ∈ mapKeys m ∨ x = k := by
  rw [mapKeys_mapSet]
  split
  · constructor
    · exact Or.inl
    · rintro (h | h)
      · exact h
      · subst h; assumption
  · simp

theorem nodup_mapKeys_mapSet (m : List (String × V)) (k : String) (v : V)
    (h : (mapKeys m).Nodup) : (mapKeys (mapSet m k v)).Nodup := by
  rw [mapKeys_mapSet]
  split
  · exact h
  · rename_i hk
    rw [List.nodup_append]
    refine ⟨h, List.nodup_singleton k, ?_⟩
    intro a ha hb
    simp only [List.mem_singleton] at hb
    exact hk (hb ▸ ha)

theorem mem_mapSet (m : List (String × V)) (k : String) (v : V) (e : String × V)
    (h : e ∈ mapSet m k v) : e ∈ m ∨ e = (k, v) := by
  induction m with
  | nil => simp [mapSet] at h; exact Or.inr h
  | cons e' rest ih =>
    obtain ⟨k', v'⟩ := e'
    by_cases hk : k' = k
    · simp only [mapSet, hk, if_true, List.mem_cons] at h
      rcases h with h | h
      · exact Or.inr h
      · exact Or.inl (List.mem_cons_of_mem _ h)
    · simp only [mapSet, hk, if_false, List.mem_cons] at h
      rcases h with h | h
      · exact Or.inl (h ▸ List.mem_cons_self _ _)
      · rcases ih h with h' | h'
        · exact Or.inl (List.mem_cons_of_mem _ h')
        · exact Or.inr h'

/-- The fold behind `new Map(entries)`, started from a map built so far. -/
theorem foldl_mapSet_keys (es : List (String × V)) (m : List (String × V)) (x : String) :
    x ∈ mapKeys (es.foldl (fun m e => mapSet m e.1 e.2) m) ↔ x ∈ mapKeys m ∨ x ∈ mapKeys es := by
  induction es generalizing m with
  | nil => simp [mapKeys]
  | cons e rest ih =>
    simp only [List.foldl_cons]
    rw [ih, mem_mapKeys_mapSet]
    simp only [mapKeys, List.map_cons, List.mem_cons]
    tauto

theorem foldl_mapSet_nodup (es : List (String × V)) (m : List (String × V))
    (h : (mapKeys m).Nodup) : (mapKeys (es.foldl (fun m e => mapSet m e.1 e.2) m)).Nodup := by
  induction es generalizing m with
  | nil => exact h
  | cons e rest ih =>
    simp only [List.foldl_cons]
    exact ih _ (nodup_mapKeys_mapSet m e.1 e.2 h)

theorem foldl_mapSet_mem (es : List (String × V)) (m : List (String × V)) (x : String × V)
    (h : x ∈ es.foldl (fun m e => mapSet m e.1 e.2) m) : x ∈ m ∨ x ∈ es := by
  induction es generalizing m with
  | nil => exact Or.inl h
  | cons e rest ih =>
    simp only [List.foldl_cons] at h
    rcases ih _ h with h' | h'
    · rcases mem_mapSet m e.1 e.2 x h' with h'' | h''
      · exact Or.inl h''
      · exact Or.inr (h'' ▸ List.mem_cons_self _ _)
    · exact Or.inr (List.mem_cons_of_mem _ h')

theorem foldl_mapSet_of_nodup (es : List (String × V)) (m : List (String × V))
    (h : (mapKeys m ++ mapKeys es).Nodup) :
    es.foldl (fun m e => mapSet m e.1 e.2) m = m ++ es := by
  induction es generalizing m with
  | nil => simp
  | cons e rest ih =>
    simp only [List.foldl_cons]
    have hk : e.1 ∉ mapKeys m := by
      intro hmem
      rw [List.nodup_append] at h
      exact h.2.2 hmem (by simp [mapKeys])
    rw [mapSet_of_not_mem m e.1 e.2 hk]
    have h' : (mapKeys (m ++ [(e.1, e.2)]) ++ mapKeys rest).Nodup := by
      simpa [mapKeys, List.append_assoc] using h
    rw [ih _ h']
    simp

theorem mem_mapKeys_jsMap (es : List (String × V)) (x : String) :
    x ∈ mapKeys (jsMap es) ↔ x ∈ mapKeys es := by
  unfold jsMap
  rw [foldl_mapSet_keys]
  simp [mapKeys]

theorem nodup_mapKeys_jsMap (es : List (String × V)) : (mapKeys (jsMap es)).Nodup := by
  unfold jsMap
  exact foldl_mapSet_nodup es [] (by simp [mapKeys])

theorem mem_jsMap (es : List (String × V)) (x : String × V) (h : x ∈ jsMap es) : x ∈ es := by
  unfold jsMap at h
  rcases foldl_mapSet_mem es [] x h with h' | h'
  · simp at h'
  · exact h'

theorem jsMap_of_nodup (es : List (String × V)) (h : (mapKeys es).Nodup) : jsMap es = es := by
  unfold jsMap
  rw [foldl_mapSet_of_nodup es [] (by simpa [mapKeys] using h)]
  simp

theorem mapGet_eq_none_iff (m : List (String × V)) (k : String) :
    mapGet m k = none ↔ k ∉ mapKeys m := by
  induction m with
  | nil => simp [mapGet, mapKeys]
  | cons e rest ih =>
    obtain ⟨k', v'⟩ := e
    by_cases hk : k' = k
    · simp [mapGet, hk, mapKeys]
    · simp only [mapGet, hk, if_false, ih, mapKeys, List.map_cons, List.mem_cons, not_or]
      constructor
      · exact fun h => ⟨fun hh => hk hh.symm, h⟩
      · exact fun h => h.2

theorem mapGet_of_mem (m : List (String × V)) (k : String) (v : V)
    (hn : (mapKeys m).Nodup) (h : (k, v) ∈ m) : mapGet m k = some v := by
  induction m with
  | nil => simp at h
  | cons e rest ih =>
    obtain ⟨k', v'⟩ := e
    simp only [mapKeys, List.map_cons, List.nodup_cons] at hn
    simp only [List.mem_cons, Prod.mk.injEq] at h
    rcases h with ⟨h1, h2⟩ | h
    · simp [mapGet, h1, h2]
    · have hne : ¬ k' = k := by
        intro hh
        apply hn.1
        rw [hh]
        exact List.mem_map.mpr ⟨(k, v), h, rfl⟩
      simp only [mapGet, hne, if_false]
      exact ih hn.2 h

theorem mem_of_mapGet (m : List (String × V)) (k : String) (v : V)
    (h : mapGet m k = some v) : (k, v) ∈ m := by
  induction m with
  | nil => simp [mapGet] at h
  | cons e rest ih =>
    obtain ⟨k', v'⟩ := e
    by_cases hk : k' = k
    · simp only [mapGet, hk, if_true, Option.some.injEq] at h
      simp [hk, h]
    · simp only [mapGet, hk, if_false] at h
      exact List.mem_cons_of_mem _ (ih h)

theorem mapSet_map (g : V → W) (m : List (String × V)) (k : String) (v : V) :
    (mapSet m k v).map (Prod.map id g) = mapSet (m.map (Prod.map id g)) k (g v) := by
  induction m with
  | nil => rfl
  | cons e rest ih =>
    obtain ⟨k', v'⟩ := e
    by_cases hk : k' = k
    · simp [mapSet, hk]
    · simp [mapSet, hk, ih]

theorem foldl_mapSet_map (g : V → W) (es m : List (String × V)) :
    (es.foldl (fun m e => mapSet m e.1 e.2) m).map (Prod.map id g) =
      (es.map (Prod.map id g)).foldl (fun m e => mapSet m e.1 e.2) (m.map (Prod.map id g)) := by
  induction es generalizing m with
  | nil => rfl
  | cons e rest ih =>
    simp only [List.foldl_cons, List.map_cons]
    rw [ih, mapSet_map]
    rfl

theorem jsMap_map (g : V → W) (es : List (String × V)) :
    (jsMap es).map (Prod.map id g) = jsMap (es.map (Prod.map id g)) := by
  unfold jsMap
  rw [foldl_mapSet_map]
  rfl

theorem mapGet_map (g : V → W) (m : List (String × V)) (k : String) :
    mapGet (m.map (Prod.map id g)) k = (mapGet m k).map g := by
  induction m with
  | nil => rfl
  | cons e rest ih =>
    obtain ⟨k', v'⟩ := e
    by_cases hk : k' = k
    · simp [mapGet, hk]
    · simp [mapGet, hk, ih]

theorem mapKeys_map (g : V → W) (m : List (String × V)) :
    mapKeys (m.map (Prod.map id g)) = mapKeys m := by
  simp [mapKeys, List.map_map, Function.comp_def]

end MapLemmas

/-! ## The two loops of `detectChanges` in closed form -/

theorem addedModifiedStep_eq (oldMap : List (String × FunctionRecord)) (acc : ChangeSet)
    (e : String × FunctionRecord) :
    addedModifiedStep oldMap acc e =
      { added := acc.added ++ (if !mapHas oldMap e.1 then [e.2] else []),
        removed := acc.removed,
        modified := acc.modified ++ (modifiedOf oldMap e).toList } := by
  unfold addedModifiedStep modifiedOf
  by_cases h : mapHas oldMap e.1 = true
  · simp only [h, Bool.not_true, Bool.false_eq_true, if_false, List.append_nil]
    cases hg : mapGet oldMap e.1 with
    | none => simp
    | some oldFn =>
      by_cases hj : jsJoin ", " oldFn.params = jsJoin ", " e.2.params
      · simp [hj]
      · simp [hj]
  · have hf : mapHas oldMap e.1 = false := by simpa using h
    have hnone : mapGet oldMap e.1 = none :=
      (mapGet_eq_none_iff oldMap e.1).mpr ((mapHas_false_iff oldMap e.1).mp hf)
    simp [hf, hnone]

theorem foldl_addedModifiedStep (oldMap : List (String × FunctionRecord))
    (es : List (String × FunctionRecord)) (acc : ChangeSet) :
    es.foldl (addedModifiedStep oldMap) acc =
      { added := acc.added ++ (es.filter (fun e => !mapHas oldMap e.1)).map Prod.snd,
        removed := acc.removed,
        modified := acc.modified ++ es.filterMap (modifiedOf oldMap) } := by
  induction es generalizing acc with
  | nil => simp
  | cons e rest ih =>
    rw [List.foldl_cons, ih, addedModifiedStep_eq]
    by_cases h : mapHas oldMap e.1 = true
    · cases hm : modifiedOf oldMap e <;> simp [h, hm, List.filter_cons, List.filterMap_cons]
    · have hf : mapHas oldMap e.1 = false := by simpa using h
      cases hm : modifiedOf oldMap e <;> simp [hf, hm, List.filter_cons, List.filterMap_cons]

theorem foldl_removedStep (newMap : List (String × FunctionRecord))
    (es : List (String × FunctionRecord)) (acc : ChangeSet) :
    es.foldl (removedStep newMap) acc =
      { added := acc.added,
        removed := acc.removed ++ (es.filter (fun e => !mapHas newMap e.1)).map Prod.snd,
        modified := acc.modified } := by
  induction es generalizing acc with
  | nil => simp
  | cons e rest ih =>
    rw [List.foldl_cons, ih]
    unfold removedStep
    by_cases h : mapHas newMap e.1 = true
    · simp [h, List.filter_cons]
    · have hf : mapHas newMap e.1 = false := by simpa using h
      simp [hf, List.filter_cons]

/-- The result of `detectChanges` bucket by bucket. -/
theorem detectChanges_eq (oldFunctions newFunctions : List FunctionRecord) :
    detectChanges oldFunctions newFunctions =
      { added := ((jsMap (nameEntries newFunctions)).filter
          (fun e => !mapHas (jsMap (nameEntries oldFunctions)) e.1)).map Prod.snd,
        removed := ((jsMap (nameEntries oldFunctions)).filter
          (fun e => !mapHas (jsMap (nameEntries newFunctions)) e.1)).map Prod.snd,
        modified := (jsMap (nameEntries newFunctions)).filterMap
          (modifiedOf (jsMap (nameEntries oldFunctions))) } := by
  unfold detectChanges
  simp only [foldl_addedModifiedStep, foldl_removedStep, List.nil_append]
  rfl

theorem mapKeys_nameEntries (fns : List FunctionRecord) :
    mapKeys (nameEntries fns) = fns.map FunctionRecord.name := by
  simp [mapKeys, nameEntries, List.map_map, Function.comp_def]

/-- Every entry of the map built from a list of records is keyed by the record's name and
holds a record of the list. -/
theorem jsMap_nameEntries_entry (fns : List FunctionRecord) (e : String × FunctionRecord)
    (h : e ∈ jsMap (nameEntries fns)) : e.2.name = e.1 ∧ e.2 ∈ fns := by
  have := mem_jsMap _ _ h
  simp only [nameEntries, List.mem_map] at this
  obtain ⟨fn, hfn, rfl⟩ := this
  exact ⟨rfl, hfn⟩

theorem mem_keys_jsMap_nameEntries (fns : List FunctionRecord) (n : String) :
    n ∈ mapKeys (jsMap (nameEntries fns)) ↔ n ∈ fns.map FunctionRecord.name := by
  rw [mem_mapKeys_jsMap, mapKeys_nameEntries]

theorem jsMap_nameEntries_of_nodup (fns : List FunctionRecord)
    (h : (fns.map FunctionRecord.name).Nodup) : jsMap (nameEntries fns) = nameEntries fns :=
  jsMap_of_nodup _ (by rw [mapKeys_nameEntries]; exact h)

theorem modifiedOf_name (oldMap : List (String × FunctionRecord)) (e : String × FunctionRecord)
    (x : ModifiedEntry) (h : modifiedOf oldMap e = some x) :
    x.name = e.1 ∧ e.1 ∈ mapKeys oldMap := by
  unfold modifiedOf at h
  cases hg : mapGet oldMap e.1 with
  | none => simp [hg] at h
  | some oldFn =>
    have hk : e.1 ∈ mapKeys oldMap := by
      by_contra hc
      rw [(mapGet_eq_none_iff oldMap e.1).mpr hc] at hg
      exact Option.noConfusion hg
    simp only [hg] at h
    split at h
    · simp only [Option.some.injEq] at h
      exact ⟨by rw [← h], hk⟩
    · exact Option.noConfusion h

theorem filterMap_modifiedOf_names (oldMap es : List (String × FunctionRecord)) :
    (es.filterMap (modifiedOf oldMap)).map ModifiedEntry.name =
      (es.filter (fun e => (modifiedOf oldMap e).isSome)).map Prod.fst := by
  induction es with
  | nil => rfl
  | cons e rest ih =>
    cases hm : modifiedOf oldMap e with
    | none => simp [List.filterMap_cons, List.filter_cons, hm, ih]
    | some x =>
      simp [List.filterMap_cons, List.filter_cons, hm, ih, (modifiedOf_name oldMap e x hm).1]

theorem filter_map_snd_names (fns : List FunctionRecord) (p : String × FunctionRecord → Bool) :
    (((jsMap (nameEntries fns)).filter p).map Prod.snd).map FunctionRecord.name =
      ((jsMap (nameEntries fns)).filter p).map Prod.fst := by
  rw [List.map_map]
  apply List.map_congr_left
  intro e he
  exact (jsMap_nameEntries_entry fns e (List.mem_of_mem_filter he)).1

/-- Names of the `added` bucket: keys of `newMap`, in order, that `oldMap` lacks. -/
theorem added_names (o n : List FunctionRecord) :
    (detectChanges o n).added.map FunctionRecord.name =
      ((jsMap (nameEntries n)).filter
        (fun e => !mapHas (jsMap (nameEntries o)) e.1)).map Prod.fst := by
  rw [detectChanges_eq]
  exact filter_map_snd_names n _

/-- Names of the `removed` bucket: keys of `oldMap`, in order, that `newMap` lacks. -/
theorem removed_names (o n : List FunctionRecord) :
    (detectChanges o n).removed.map FunctionRecord.name =
      ((jsMap (nameEntries o)).filter
        (fun e => !mapHas (jsMap (nameEntries n)) e.1)).map Prod.fst := by
  rw [detectChanges_eq]
  exact filter_map_snd_names o _

/-- Names of the `modified` bucket: keys of `newMap`, in order, for which the first loop
pushes an entry. -/
theorem modified_names (o n : List FunctionRecord) :
    (detectChanges o n).modified.map ModifiedEntry.name =
      ((jsMap (nameEntries n)).filter
        (fun e => (modifiedOf (jsMap (nameEntries o)) e).isSome)).map Prod.fst := by
  rw [detectChanges_eq]
  exact filterMap_modifiedOf_names _ _

theorem nodup_filter_keys {V : Type} (m : List (String × V)) (p : String × V → Bool)
    (h : (mapKeys m).Nodup) : ((m.filter p).map Prod.fst).Nodup :=
  List.Nodup.sublist (List.Sublist.map _ (List.filter_sublist m)) h

theorem mem_filter_keys {V : Type} (m : List (String × V)) (p : String × V → Bool)
    (k : String) (h : k ∈ (m.filter p).map Prod.fst) :
    k ∈ mapKeys m ∧ ∃ v, (k, v) ∈ m ∧ p (k, v) = true := by
  simp only [List.mem_map, List.mem_filter] at h
  obtain ⟨⟨k', v⟩, ⟨hm, hp⟩, rfl⟩ := h
  exact ⟨List.mem_map.mpr ⟨(k', v), hm, rfl⟩, v, hm, hp⟩

/-- C1. Partition property of `detectChanges` for arbitrary inputs (repeated names
allowed): inside each of the buckets `added`, `removed`, `modified` no name occurs twice,
and no name lies in two buckets; so every name is in exactly one of added, removed,
modified, or in none of them. -/
theorem detectChanges_partition (oldFunctions newFunctions : List FunctionRecord) :
    ((detectChanges oldFunctions newFunctions).added.map FunctionRecord.name).Nodup ∧
    ((detectChanges oldFunctions newFunctions).removed.map FunctionRecord.name).Nodup ∧
    ((detectChanges oldFunctions newFunctions).modified.map ModifiedEntry.name).Nodup ∧
    (∀ n, ¬ (n ∈ (detectChanges oldFunctions newFunctions).added.map FunctionRecord.name ∧
             n ∈ (detectChanges oldFunctions newFunctions).removed.map FunctionRecord.name)) ∧
    (∀ n, ¬ (n ∈ (detectChanges oldFunctions newFunctions).added.map FunctionRecord.name ∧
             n ∈ (detectChanges oldFunctions newFunctions).modified.map ModifiedEntry.name)) ∧
    (∀ n, ¬ (n ∈ (detectChanges oldFunctions newFunctions).removed.map FunctionRecord.name ∧
             n ∈ (detectChanges oldFunctions newFunctions).modified.map ModifiedEntry.name)) := by
  rw [added_names, removed_names, modified_names]
  refine ⟨nodup_filter_keys _ _ (nodup_mapKeys_jsMap _), nodup_filter_keys _ _ (nodup_mapKeys_jsMap _),
    nodup_filter_keys _ _ (nodup_mapKeys_jsMap _), ?_, ?_, ?_⟩
  · rintro n ⟨ha, hr⟩
    obtain ⟨hk, -⟩ := mem_filter_keys _ _ n ha
    obtain ⟨-, v, -, hp⟩ := mem_filter_keys _ _ n hr
    simp only [Bool.not_eq_true', mapHas_false_iff] at hp
    exact hp hk
  · rintro n ⟨ha, hm⟩
    obtain ⟨-, v, -, hp⟩ := mem_filter_keys _ _ n ha
    obtain ⟨-, w, -, hq⟩ := mem_filter_keys _ _ n hm
    simp only [Bool.not_eq_true', mapHas_false_iff] at hp
    rw [Option.isSome_iff_exists] at hq
    obtain ⟨x, hx⟩ := hq
    exact hp (modifiedOf_name _ _ x hx).2
  · rintro n ⟨hr, hm⟩
    obtain ⟨-, v, -, hp⟩ := mem_filter_keys _ _ n hr
    obtain ⟨hk, -⟩ := mem_filter_keys _ _ n hm
    simp only [Bool.not_eq_true', mapHas_false_iff] at hp
    exact hp hk

/-! ## Inputs with unique names -/

theorem mapGet_nameEntries (fns : List FunctionRecord)
    (h : (fns.map FunctionRecord.name).Nodup) (k : String) (o : FunctionRecord) :
    mapGet (nameEntries fns) k = some o ↔ o ∈ fns ∧ o.name = k := by
  constructor
  · intro hg
    have := mem_of_mapGet _ _ _ hg
    simp only [nameEntries, List.mem_map, Prod.mk.injEq] at this
    obtain ⟨fn, hfn, h1, h2⟩ := this
    subst h2
    exact ⟨hfn, h1⟩
  · rintro ⟨ho, rfl⟩
    apply mapGet_of_mem
    · rw [mapKeys_nameEntries]; exact h
    · exact List.mem_map.mpr ⟨o, ho, rfl⟩

theorem modifiedOf_nameEntries (o : List FunctionRecord)
    (h : (o.map FunctionRecord.name).Nodup) (f : FunctionRecord) (x : ModifiedEntry) :
    modifiedOf (nameEntries o) (f.name, f) = some x ↔
      ∃ r ∈ o, r.name = f.name ∧ jsJoin ", " r.params ≠ jsJoin ", " f.params ∧
        x = { name := f.name, oldParams := r.params, newParams := f.params } := by
  unfold modifiedOf
  constructor
  · intro hm
    cases hg : mapGet (nameEntries o) f.name with
    | none => simp [hg] at hm
    | some r =>
      obtain ⟨hr, hname⟩ := (mapGet_nameEntries o h _ _).mp hg
      simp only [hg] at hm
      split at hm
      · rename_i hne
        simp only [Option.some.injEq] at hm
        exact ⟨r, hr, hname, hne, hm.symm⟩
      · exact Option.noConfusion hm
  · rintro ⟨r, hr, hname, hne, rfl⟩
    have hg := (mapGet_nameEntries o h f.name r).mpr ⟨hr, hname⟩
    simp only [hg]
    rw [if_pos hne]

theorem modified_of_nodup (o n : List FunctionRecord)
    (ho : (o.map FunctionRecord.name).Nodup) (hn : (n.map FunctionRecord.name).Nodup)
    (x : ModifiedEntry) :
    x ∈ (detectChanges o n).modified ↔
      ∃ r ∈ o, ∃ f ∈ n, r.name = f.name ∧ jsJoin ", " r.params ≠ jsJoin ", " f.params ∧
        x = { name := f.name, oldParams := r.params, newParams := f.params } := by
  rw [detectChanges_eq, jsMap_nameEntries_of_nodup o ho, jsMap_nameEntries_of_nodup n hn]
  simp only [List.mem_filterMap, nameEntries, List.mem_map]
  constructor
  · rintro ⟨e, ⟨f, hf, rfl⟩, hm⟩
    obtain ⟨r, hr, h1, h2, h3⟩ := (modifiedOf_nameEntries o ho f x).mp hm
    exact ⟨r, hr, f, hf, h1, h2, h3⟩
  · rintro ⟨r, hr, f, hf, h1, h2, h3⟩
    exact ⟨(f.name, f), ⟨f, hf, rfl⟩, (modifiedOf_nameEntries o ho f x).mpr ⟨r, hr, h1, h2, h3⟩⟩

theorem not_mem_added_of_mem_old (o n : List FunctionRecord) (k : String)
    (h : k ∈ o.map FunctionRecord.name) :
    k ∉ (detectChanges o n).added.map FunctionRecord.name := by
  rw [added_names]
  intro hk
  obtain ⟨-, v, -, hp⟩ := mem_filter_keys _ _ k hk
  simp only [Bool.not_eq_true', mapHas_false_iff] at hp
  exact hp ((mem_keys_jsMap_nameEntries o k).mpr h)

theorem not_mem_removed_of_mem_new (o n : List FunctionRecord) (k : String)
    (h : k ∈ n.map FunctionRecord.name) :
    k ∉ (detectChanges o n).removed.map FunctionRecord.name := by
  rw [removed_names]
  intro hk
  obtain ⟨-, v, -, hp⟩ := mem_filter_keys _ _ k hk
  simp only [Bool.not_eq_true', mapHas_false_iff] at hp
  exact hp ((mem_keys_jsMap_nameEntries n k).mpr h)

/-- C2. Modified trigger, for inputs with unique names on each side: a name is in the
`modified` bucket exactly when it occurs on both sides with different joined parameter
strings; the entry of such a name carries the old record's params as `oldParams` and the
new record's params as `newParams`; a name whose joined parameter strings agree is in no
bucket. -/
theorem detectChanges_modified_iff (oldFunctions newFunctions : List FunctionRecord)
    (ho : (oldFunctions.map FunctionRecord.name).Nodup)
    (hn : (newFunctions.map FunctionRecord.name).Nodup) :
    (∀ n, n ∈ (detectChanges oldFunctions newFunctions).modified.map ModifiedEntry.name ↔
      ∃ r ∈ oldFunctions, ∃ f ∈ newFunctions, r.name = n ∧ f.name = n ∧
        jsJoin ", " r.params ≠ jsJoin ", " f.params) ∧
    (∀ x ∈ (detectChanges oldFunctions newFunctions).modified,
      ∀ r ∈ oldFunctions, ∀ f ∈ newFunctions, r.name = x.name → f.name = x.name →
        x.oldParams = r.params ∧ x.newParams = f.params) ∧
    (∀ r ∈ oldFunctions, ∀ f ∈ newFunctions, r.name = f.name →
      jsJoin ", " r.params = jsJoin ", " f.params →
        f.name ∉ (detectChanges oldFunctions newFunctions).added.map FunctionRecord.name ∧
        f.name ∉ (detectChanges oldFunctions newFunctions).removed.map FunctionRecord.name ∧
        f.name ∉ (detectChanges oldFunctions newFunctions).modified.map ModifiedEntry.name) := by
  refine ⟨?_, ?_, ?_⟩
  · intro n
    simp only [List.mem_map, modified_of_nodup oldFunctions newFunctions ho hn]
    constructor
    · rintro ⟨x, ⟨r, hr, f, hf, h1, h2, rfl⟩, rfl⟩
      exact ⟨r, hr, f, hf, h1, rfl, h2⟩
    · rintro ⟨r, hr, f, hf, h1, h2, h3⟩
      exact ⟨_, ⟨r, hr, f, hf, h1.trans h2.symm, h3, rfl⟩, h2⟩
  · intro x hx r hr f hf h1 h2
    obtain ⟨r', hr', f', hf', h3, -, rfl⟩ :=
      (modified_of_nodup oldFunctions newFunctions ho hn x).mp hx
    have e1 : r = r' := List.inj_on_of_nodup_map ho hr hr' (h1.trans h3.symm)
    have e2 : f = f' := List.inj_on_of_nodup_map hn hf hf' h2
    subst e1 e2
    exact ⟨rfl, rfl⟩
  · intro r hr f hf h1 h2
    refine ⟨not_mem_added_of_mem_old _ _ _ (h1 ▸ List.mem_map.mpr ⟨r, hr, rfl⟩),
      not_mem_removed_of_mem_new _ _ _ (List.mem_map.mpr ⟨f, hf, rfl⟩), ?_⟩
    intro hm
    obtain ⟨x, hx, hxn⟩ := List.mem_map.mp hm
    obtain ⟨r', hr', f', hf', h3, h4, rfl⟩ :=
      (modified_of_nodup oldFunctions newFunctions ho hn x).mp hx
    have e2 : f' = f := List.inj_on_of_nodup_map hn hf' hf hxn
    subst e2
    have e1 : r' = r := List.inj_on_of_nodup_map ho hr' hr (h3.trans h1.symm)
    subst e1
    exact h4 h2

/-- Witness of C2 on the JSDoc example: `foo` is the one modified name, with
`oldParams = ["a"]` and `newParams = ["a", "b"]`. -/
theorem detectChanges_modified_iff_witness :
    (docOld.map FunctionRecord.name).Nodup ∧ (docNew.map FunctionRecord.name).Nodup ∧
    ("foo" ∈ (detectChanges docOld docNew).modified.map ModifiedEntry.name ↔
      ∃ r ∈ docOld, ∃ f ∈ docNew, r.name = "foo" ∧ f.name = "foo" ∧
        jsJoin ", " r.params ≠ jsJoin ", " f.params) :=
  ⟨by decide, by decide,
    (detectChanges_modified_iff docOld docNew (by decide) (by decide)).1 "foo"⟩

/-- C3. When the names of `newFunctions` are unique, `added` is the list of the records of
`newFunctions` whose name does not occur in `oldFunctions`, in the order of
`newFunctions`. -/
theorem detectChanges_added_eq_filter (oldFunctions newFunctions : List FunctionRecord)
    (hn : (newFunctions.map FunctionRecord.name).Nodup) :
    (detectChanges oldFunctions newFunctions).added =
      newFunctions.filter (fun f => decide (f.name ∉ oldFunctions.map FunctionRecord.name)) := by
  rw [detectChanges_eq, jsMap_nameEntries_of_nodup newFunctions hn]
  simp only [nameEntries, List.filter_map, List.map_map]
  have hid : (Prod.snd ∘ fun fn : FunctionRecord => (fn.name, fn)) = id := rfl
  rw [hid, List.map_id]
  apply List.filter_congr
  intro f _
  simp only [Function.comp_apply]
  by_cases hk : f.name ∈ oldFunctions.map FunctionRecord.name
  · have h1 := (mapHas_iff _ _).mpr ((mem_keys_jsMap_nameEntries oldFunctions f.name).mpr hk)
    unfold nameEntries at h1
    simp [h1, hk]
  · have h1 := (mapHas_false_iff _ _).mpr
      (fun hh => hk ((mem_keys_jsMap_nameEntries oldFunctions f.name).mp hh))
    unfold nameEntries at h1
    simp [h1, hk]

/-- Witness of C3 on the sample files: `loginUser` and `logoutUser`, in that order. -/
theorem detectChanges_added_eq_filter_witness :
    (sampleNew.map FunctionRecord.name).Nodup ∧
    (detectChanges sampleOld sampleNew).added =
      sampleNew.filter (fun f => decide (f.name ∉ sampleOld.map FunctionRecord.name)) :=
  ⟨by decide, detectChanges_added_eq_filter sampleOld sampleNew (by decide)⟩

/-- C4. Symmetry of add / remove, for arbitrary inputs: swapping the arguments swaps the
`added` and `removed` buckets, records and order included. -/
theorem detectChanges_added_removed_symm (A B : List FunctionRecord) :
    (detectChanges A B).added = (detectChanges B A).removed ∧
    (detectChanges A B).removed = (detectChanges B A).added := by
  rw [detectChanges_eq A B, detectChanges_eq B A]
  exact ⟨rfl, rfl⟩

/-! ## Identity -/

/-- Two inputs with the same names and parameter lists position by position give maps
with the same keys and, under each key, records with the same parameter list. -/
theorem jsMap_nameEntries_params (X Y : List FunctionRecord)
    (h : Y.map (fun f => (f.name, f.params)) = X.map (fun f => (f.name, f.params))) :
    (jsMap (nameEntries Y)).map (Prod.map id FunctionRecord.params) =
      (jsMap (nameEntries X)).map (Prod.map id FunctionRecord.params) := by
  rw [jsMap_map, jsMap_map]
  have e : ∀ Z : List FunctionRecord,
      (nameEntries Z).map (Prod.map id FunctionRecord.params) =
        Z.map (fun f => (f.name, f.params)) := by
    intro Z
    simp [nameEntries, List.map_map, Function.comp_def]
  rw [e, e, h]

theorem detectChanges_same_signature (X Y : List FunctionRecord)
    (h : Y.map (fun f => (f.name, f.params)) = X.map (fun f => (f.name, f.params))) :
    detectChanges X Y = noChanges := by
  have hp := jsMap_nameEntries_params X Y h
  have hkeys : mapKeys (jsMap (nameEntries Y)) = mapKeys (jsMap (nameEntries X)) := by
    rw [← mapKeys_map FunctionRecord.params (jsMap (nameEntries Y)), hp, mapKeys_map]
  have hget : ∀ k, (mapGet (jsMap (nameEntries Y)) k).map FunctionRecord.params =
      (mapGet (jsMap (nameEntries X)) k).map FunctionRecord.params := by
    intro k
    rw [← mapGet_map, ← mapGet_map, hp]
  rw [detectChanges_eq]
  unfold noChanges
  congr 1
  · rw [List.map_eq_nil_iff, List.filter_eq_nil_iff]
    intro e he
    have hk : e.1 ∈ mapKeys (jsMap (nameEntries X)) := by
      rw [← hkeys]; exact List.mem_map.mpr ⟨e, he, rfl⟩
    simp [(mapHas_iff _ _).mpr hk]
  · rw [List.map_eq_nil_iff, List.filter_eq_nil_iff]
    intro e he
    have hk : e.1 ∈ mapKeys (jsMap (nameEntries Y)) := by
      rw [hkeys]; exact List.mem_map.mpr ⟨e, he, rfl⟩
    simp [(mapHas_iff _ _).mpr hk]
  · rw [List.filterMap_eq_nil_iff]
    intro e he
    have hY : mapGet (jsMap (nameEntries Y)) e.1 = some e.2 :=
      mapGet_of_mem _ _ _ (nodup_mapKeys_jsMap _) he
    have hX := hget e.1
    rw [hY] at hX
    unfold modifiedOf
    cases hg : mapGet (jsMap (nameEntries X)) e.1 with
    | none => rfl
    | some oldFn =>
      rw [hg] at hX
      simp only [Option.map_some', Option.some.injEq] at hX
      simp [hX]

/-- C5. Identity: `detectChanges(X, X)` is all-empty for every `X` (repeated names
included), and so is `detectChanges(X, X')` whenever `X'` has the names and parameter
lists of `X` position by position, whatever the `type` tags are. -/
theorem detectChanges_identity (X : List FunctionRecord) :
    detectChanges X X = { added := [], removed := [], modified := [] } ∧
    ∀ X' : List FunctionRecord,
      X'.map (fun f => (f.name, f.params)) = X.map (fun f => (f.name, f.params)) →
        detectChanges X X' = { added := [], removed := [], modified := [] } :=
  ⟨detectChanges_same_signature X X rfl, fun X' h => detectChanges_same_signature X X' h⟩

/-- Witness of C5: `foo(a)` against itself, and against `foo(a)` bound as an arrow
function. -/
theorem detectChanges_identity_witness :
    docOldArrow.map (fun f => (f.name, f.params)) = docOld.map (fun f => (f.name, f.params)) ∧
    detectChanges docOld docOld = { added := [], removed := [], modified := [] } ∧
    detectChanges docOld docOldArrow = { added := [], removed := [], modified := [] } :=
  ⟨by decide, (detectChanges_identity docOld).1,
    (detectChanges_identity docOld).2 docOldArrow (by decide)⟩

/-- C6. The two documented scenarios: the sample files `old.js` / `new.js`, and the JSDoc
`@example` of `detectChanges`. -/
theorem detectChanges_samples :
    detectChanges sampleOld sampleNew =
      { added := [{ name := "loginUser", params := ["email", "password"],
                    type := "FunctionDeclaration" },
                  { name := "logoutUser", params := [], type := "ArrowFunctionExpression" }],
        removed := [{ name := "getUser", params := ["id"], type := "FunctionDeclaration" }],
        modified := [{ name := "greetUser", oldParams := ["name"],
                       newParams := ["name", "greeting"] },
                     { name := "formatDate", oldParams := ["date"],
                       newParams := ["date", "locale"] }] } ∧
    detectChanges docOld docNew =
      { added := [{ name := "bar", params := [], type := "" }],
        removed := [],
        modified := [{ name := "foo", oldParams := ["a"], newParams := ["a", "b"] }] } :=
  ⟨by decide, by decide⟩

/-! ## `formatSummary` -/

theorem jsJoin_cons_cons_data (sep x y : String) (rest : List String) :
    (jsJoin sep (x :: y :: rest)).data = x.data ++ (sep.data ++ (jsJoin sep (y :: rest)).data) := by
  simp [jsJoin, String.data_append, List.append_assoc]

theorem jsJoin_cons_data (sep x : String) (xs : List String) :
    ∃ t, (jsJoin sep (x :: xs)).data = x.data ++ t := by
  cases xs with
  | nil => exact ⟨[], by simp [jsJoin]⟩
  | cons y rest => exact ⟨_, jsJoin_cons_cons_data sep x y rest⟩

theorem firstChar_jsJoin_cons (sep x : String) (xs : List String) (ch : Char)
    (h : firstChar x = some ch) : firstChar (jsJoin sep (x :: xs)) = some ch := by
  obtain ⟨t, ht⟩ := jsJoin_cons_data sep x xs
  unfold firstChar at h ⊢
  rw [ht]
  cases hx : x.data with
  | nil => rw [hx] at h; exact Option.noConfusion h
  | cons a as => rw [hx] at h; simpa using h

theorem firstChar_append (m s : String) (ch : Char) (h : firstChar m = some ch) :
    firstChar (m ++ s) = some ch := by
  unfold firstChar at h ⊢
  rw [String.data_append]
  cases hm : m.data with
  | nil => rw [hm] at h; exact Option.noConfusion h
  | cons a as => rw [hm] at h; simpa using h

/-- The array `lines` of `formatSummary` in closed form. -/
theorem summaryLines_eq (c : ChangeSet) : summaryLines c = expectedLines c := by
  obtain ⟨a, r, m⟩ := c
  cases a <;> cases r <;> cases m <;>
    simp [summaryLines, expectedLines, bucketLines, addedLine, removedLine, modifiedLine]

theorem formatSummary_eq (c : ChangeSet) : formatSummary c = jsJoin "\n" (expectedLines c) := by
  unfold formatSummary
  rw [summaryLines_eq]

theorem formatSummary_noChanges : formatSummary noChanges = noChangesSentence := by
  rw [formatSummary_eq]
  rfl

/-- The first character of a summary tells the first non-empty bucket. -/
theorem firstChar_formatSummary (c : ChangeSet) :
    firstChar (formatSummary c) =
      if c.added ≠ [] then some '✅'
      else if c.removed ≠ [] then some '❌'
      else if c.modified ≠ [] then some '✏'
      else some 'N' := by
  rw [formatSummary_eq]
  obtain ⟨a, r, m⟩ := c
  have hA : ∀ s, firstChar (addedMarker ++ s) = some '✅' :=
    fun s => firstChar_append _ _ _ (by decide)
  have hR : ∀ s, firstChar (removedMarker ++ s) = some '❌' :=
    fun s => firstChar_append _ _ _ (by decide)
  have hM : ∀ s, firstChar (modifiedMarker ++ s) = some '✏' :=
    fun s => firstChar_append _ _ _ (by decide)
  cases a <;> cases r <;> cases m <;>
    simp only [expectedLines, bucketLines, addedLine, removedLine, modifiedLine, and_self,
      if_true, if_false, List.nil_append, List.cons_append, ne_eq, not_true_eq_false,
      not_false_eq_true, and_true, and_false, true_and, false_and, reduceCtorEq]
  · decide
  · exact firstChar_jsJoin_cons _ _ _ _ (hM _)
  · exact firstChar_jsJoin_cons _ _ _ _ (hR _)
  · exact firstChar_jsJoin_cons _ _ _ _ (hR _)
  · exact firstChar_jsJoin_cons _ _ _ _ (hA _)
  · exact firstChar_jsJoin_cons _ _ _ _ (hA _)
  · exact firstChar_jsJoin_cons _ _ _ _ (hA _)
  · exact firstChar_jsJoin_cons _ _ _ _ (hA _)

/-- C7. `formatSummary(c)` is the fixed sentence "No functional changes detected." exactly
when the three buckets of `c` are empty; in particular it is the summary of
`detectChanges(X, X)` for every `X`. -/
theorem formatSummary_noChanges_iff :
    (∀ c : ChangeSet, formatSummary c = "No functional changes detected." ↔
      (c.added = [] ∧ c.removed = [] ∧ c.modified = [])) ∧
    (∀ X : List FunctionRecord,
      formatSummary (detectChanges X X) = "No functional changes detected.") := by
  constructor
  · intro c
    constructor
    · intro h
      have hc := firstChar_formatSummary c
      rw [h] at hc
      have hN : firstChar "No functional changes detected." = some 'N' := by decide
      rw [hN] at hc
      by_cases ha : c.added = []
      · by_cases hr : c.removed = []
        · by_cases hm : c.modified = []
          · exact ⟨ha, hr, hm⟩
          · simp only [ha, hr, hm, ne_eq, not_true_eq_false, not_false_eq_true, if_true,
              if_false, Option.some.injEq] at hc
            exact absurd hc (by decide)
        · simp only [ha, hr, ne_eq, not_true_eq_false, not_false_eq_true, if_true,
            if_false, Option.some.injEq] at hc
          exact absurd hc (by decide)
      · simp only [ha, ne_eq, not_false_eq_true, if_true, Option.some.injEq] at hc
        exact absurd hc (by decide)
    · rintro ⟨ha, hr, hm⟩
      obtain ⟨a, r, m⟩ := c
      simp only at ha hr hm
      subst ha hr hm
      exact formatSummary_noChanges
  · intro X
    rw [detectChanges_same_signature X X rfl]
    exact formatSummary_noChanges

/-! ## Lines of a summary -/

theorem splitLines_of_not_mem (a : List Char) (h : '\n' ∉ a) : splitLines a = [a] := by
  induction a with
  | nil => rfl
  | cons ch rest ih =>
    simp only [List.mem_cons, not_or] at h
    have hne : ¬ ch = '\n' := fun hh => h.1 hh.symm
    simp [splitLines, hne, ih h.2]

theorem splitLines_append (a b : List Char) (h : '\n' ∉ a) :
    splitLines (a ++ '\n' :: b) = a :: splitLines b := by
  induction a with
  | nil => simp [splitLines]
  | cons ch rest ih =>
    simp only [List.mem_cons, not_or] at h
    have hne : ¬ ch = '\n' := fun hh => h.1 hh.symm
    simp [splitLines, hne, ih h.2]

theorem textLines_jsJoin (x : String) (xs : List String)
    (h : ∀ l ∈ x :: xs, '\n' ∉ l.data) : textLines (jsJoin "\n" (x :: xs)) = x :: xs := by
  induction xs generalizing x with
  | nil =>
    have hx := h x (List.mem_cons_self _ _)
    simp [textLines, jsJoin, splitLines_of_not_mem _ hx]
  | cons y rest ih =>
    have hx := h x (List.mem_cons_self _ _)
    have hrest : ∀ l ∈ y :: rest, '\n' ∉ l.data :=
      fun l hl => h l (List.mem_cons_of_mem _ hl)
    have ih' := ih y hrest
    unfold textLines at ih' ⊢
    rw [jsJoin_cons_cons_data]
    have hsep : ("\n" : String).data = ['\n'] := rfl
    rw [hsep, List.singleton_append, splitLines_append _ _ hx, List.map_cons, ih']

theorem mem_jsJoin_data (sep : String) (L : List String) (ch : Char)
    (h : ch ∈ (jsJoin sep L).data) : ch ∈ sep.data ∨ ∃ l ∈ L, ch ∈ l.data := by
  induction L with
  | nil => simp [jsJoin] at h
  | cons x xs ih =>
    cases xs with
    | nil =>
      simp only [jsJoin] at h
      exact Or.inr ⟨x, List.mem_cons_self _ _, h⟩
    | cons y rest =>
      rw [jsJoin_cons_cons_data] at h
      simp only [List.mem_append] at h
      rcases h with h | h | h
      · exact Or.inr ⟨x, List.mem_cons_self _ _, h⟩
      · exact Or.inl h
      · rcases ih h with h' | ⟨l, hl, h'⟩
        · exact Or.inl h'
        · exact Or.inr ⟨l, List.mem_cons_of_mem _ hl, h'⟩

/-- A character of a joined parameter list, other than the comma and the blank of the
separator, is a character of one of the parameter strings. -/
theorem mem_params_of_mem_join (ps : List String) (ch : Char)
    (h : ch ∈ (jsJoin ", " ps).data) (h1 : ch ≠ ',') (h2 : ch ≠ ' ') :
    ∃ p ∈ ps, ch ∈ p.data := by
  rcases mem_jsJoin_data _ _ _ h with h' | h'
  · have hsep : (", " : String).data = [',', ' '] := rfl
    rw [hsep] at h'
    simp only [List.mem_cons, List.mem_singleton, List.not_mem_nil, or_false] at h'
    rcases h' with h' | h'
    · exact absurd h' h1
    · exact absurd h' h2
  · exact h'

theorem renderFn_data (f : FunctionRecord) :
    (renderFn f).data = f.name.data ++ '(' :: ((jsJoin ", " f.params).data ++ [')']) := by
  simp only [renderFn, String.data_append]
  simp

theorem renderModified_data (e : ModifiedEntry) :
    (renderModified e).data =
      e.name.data ++ '(' :: ((jsJoin ", " e.oldParams).data ++ ')' :: ' ' :: '→' :: ' ' ::
        (e.name.data ++ '(' :: ((jsJoin ", " e.newParams).data ++ [')']))) := by
  simp only [renderModified, String.data_append]
  simp

theorem newline_not_mem_renderFn (f : FunctionRecord) (h : recordNewlineFree f) :
    '\n' ∉ (renderFn f).data := by
  rw [renderFn_data]
  intro hm
  simp only [List.mem_append, List.mem_cons, List.mem_singleton, List.not_mem_nil,
    or_false] at hm
  rcases hm with hm | hm | hm | hm
  · exact h.1 hm
  · exact absurd hm (by decide)
  · obtain ⟨p, hp, hc⟩ := mem_params_of_mem_join _ _ hm (by decide) (by decide)
    exact h.2 p hp hc
  · exact absurd hm (by decide)

theorem newline_not_mem_renderModified (e : ModifiedEntry) (h : entryNewlineFree e) :
    '\n' ∉ (renderModified e).data := by
  rw [renderModified_data]
  intro hm
  simp only [List.mem_append, List.mem_cons, List.mem_singleton, List.not_mem_nil,
    or_false] at hm
  rcases hm with hm | hm | hm | hm | hm | hm | hm | hm | hm | hm | hm
  · exact h.1 hm
  · exact absurd hm (by decide)
  · obtain ⟨p, hp, hc⟩ := mem_params_of_mem_join _ _ hm (by decide) (by decide)
    exact h.2.1 p hp hc
  · exact absurd hm (by decide)
  · exact absurd hm (by decide)
  · exact absurd hm (by decide)
  · exact absurd hm (by decide)
  · exact h.1 hm
  · exact absurd hm (by decide)
  · obtain ⟨p, hp, hc⟩ := mem_params_of_mem_join _ _ hm (by decide) (by decide)
    exact h.2.2 p hp hc
  · exact absurd hm (by decide)

theorem newline_not_mem_line (marker : String) (L : List String)
    (hm : '\n' ∉ marker.data) (hL : ∀ l ∈ L, '\n' ∉ l.data) :
    '\n' ∉ (marker ++ jsJoin ", " L).data := by
  rw [String.data_append]
  intro h
  rcases List.mem_append.mp h with h | h
  · exact hm h
  · rcases mem_jsJoin_data _ _ _ h with h' | ⟨l, hl, h'⟩
    · exact absurd h' (by decide)
    · exact hL l hl h'

theorem newline_not_mem_expectedLines (c : ChangeSet) (h : newlineFree c) :
    ∀ l ∈ expectedLines c, '\n' ∉ l.data := by
  have hA : '\n' ∉ (addedLine c).data :=
    newline_not_mem_line _ _ (by decide) (by
      intro l hl
      obtain ⟨f, hf, rfl⟩ := List.mem_map.mp hl
      exact newline_not_mem_renderFn f (h.1 f hf))
  have hR : '\n' ∉ (removedLine c).data :=
    newline_not_mem_line _ _ (by decide) (by
      intro l hl
      obtain ⟨f, hf, rfl⟩ := List.mem_map.mp hl
      exact newline_not_mem_renderFn f (h.2.1 f hf))
  have hM : '\n' ∉ (modifiedLine c).data :=
    newline_not_mem_line _ _ (by decide) (by
      intro l hl
      obtain ⟨e, he, rfl⟩ := List.mem_map.mp hl
      exact newline_not_mem_renderModified e (h.2.2 e he))
  intro l hl
  unfold expectedLines at hl
  split at hl
  · simp only [List.mem_singleton] at hl
    subst hl
    decide
  · unfold bucketLines at hl
    simp only [List.mem_append] at hl
    rcases hl with (hl | hl) | hl
    · split at hl
      · simp at hl
      · simp only [List.mem_singleton] at hl; subst hl; exact hA
    · split at hl
      · simp at hl
      · simp only [List.mem_singleton] at hl; subst hl; exact hR
    · split at hl
      · simp at hl
      · simp only [List.mem_singleton] at hl; subst hl; exact hM

theorem expectedLines_length (c : ChangeSet) :
    (expectedLines c).length = if nonEmptyBuckets c = 0 then 1 else nonEmptyBuckets c := by
  obtain ⟨a, r, m⟩ := c
  cases a <;> cases r <;> cases m <;> simp [expectedLines, bucketLines, nonEmptyBuckets]

theorem expectedLines_ne_nil (c : ChangeSet) : expectedLines c ≠ [] := by
  obtain ⟨a, r, m⟩ := c
  cases a <;> cases r <;> cases m <;> simp [expectedLines, bucketLines]

/-- C8 as stated fails: one added function with the parameter string `"a\nb"` makes a
summary of two lines, `✅ Added: f(a` and `b)`, although one bucket only is non-empty. -/
theorem formatSummary_lines_counterexample :
    nonEmptyBuckets newlineChangeSet = 1 ∧
    textLines (formatSummary newlineChangeSet) = ["✅ Added: f(a", "b)"] := by
  decide

/-- C8, amended. The summary of every change set is the `"\n"`-join of one entry per
non-empty bucket, in the order added, removed, modified (the fixed sentence alone when all
are empty), each entry being its marker followed by the comma-joined renderings. When no
name and no parameter string holds a line feed, these entries are exactly the lines of
the text: one line per non-empty bucket, in that order. -/
theorem formatSummary_lines (c : ChangeSet) :
    formatSummary c = jsJoin "\n"
      (if c.added = [] ∧ c.removed = [] ∧ c.modified = [] then
        ["No functional changes detected."]
      else
        (if c.added = [] then [] else
          ["✅ Added: " ++ jsJoin ", " (c.added.map renderFn)]) ++
        (if c.removed = [] then [] else
          ["❌ Removed: " ++ jsJoin ", " (c.removed.map renderFn)]) ++
        (if c.modified = [] then [] else
          ["✏️ Modified: " ++ jsJoin ", " (c.modified.map renderModified)])) ∧
    (newlineFree c →
      textLines (formatSummary c) =
        (if c.added = [] ∧ c.removed = [] ∧ c.modified = [] then
          ["No functional changes detected."]
        else
          (if c.added = [] then [] else
            ["✅ Added: " ++ jsJoin ", " (c.added.map renderFn)]) ++
          (if c.removed = [] then [] else
            ["❌ Removed: " ++ jsJoin ", " (c.removed.map renderFn)]) ++
          (if c.modified = [] then [] else
            ["✏️ Modified: " ++ jsJoin ", " (c.modified.map renderModified)])) ∧
      (textLines (formatSummary c)).length =
        if nonEmptyBuckets c = 0 then 1 else nonEmptyBuckets c) := by
  refine ⟨formatSummary_eq c, fun h => ?_⟩
  have key : textLines (formatSummary c) = expectedLines c := by
    rw [formatSummary_eq]
    have hall := newline_not_mem_expectedLines c h
    cases hE : expectedLines c with
    | nil => exact absurd hE (expectedLines_ne_nil c)
    | cons x xs =>
      rw [hE] at hall
      exact textLines_jsJoin x xs hall
  exact ⟨key, by rw [key, expectedLines_length]⟩

/-- Witness of C8 (amended) on the change set of the sample files: three lines. -/
theorem formatSummary_lines_witness :
    newlineFree sampleChanges ∧
    textLines (formatSummary sampleChanges) =
      ["✅ Added: loginUser(email, password), logoutUser()",
       "❌ Removed: getUser(id)",
       "✏️ Modified: greetUser(name) → greetUser(name, greeting), formatDate(date) → formatDate(date, locale)"] :=
  ⟨by simp [newlineFree, recordNewlineFree, entryNewlineFree, sampleChanges],
   (((formatSummary_lines sampleChanges).2
      (by simp [newlineFree, recordNewlineFree, entryNewlineFree, sampleChanges])).1).trans
      (by decide)⟩

/-! ## Reading a summary back -/

theorem split_at_char (c : Char) (a a' b b' : List Char) (ha : c ∉ a) (ha' : c ∉ a')
    (h : a ++ c :: b = a' ++ c :: b') : a = a' ∧ b = b' := by
  induction a generalizing a' with
  | nil =>
    cases a' with
    | nil => simpa using h
    | cons y r' =>
      simp only [List.nil_append, List.cons_append, List.cons.injEq] at h
      exact absurd (by rw [h.1]; exact List.mem_cons_self _ _) ha'
  | cons x r ih =>
    cases a' with
    | nil =>
      simp only [List.nil_append, List.cons_append, List.cons.injEq] at h
      exact absurd (by rw [h.1]; exact List.mem_cons_self _ _) ha
    | cons y r' =>
      simp only [List.cons_append, List.cons.injEq] at h
      simp only [List.mem_cons, not_or] at ha ha'
      obtain ⟨e1, e2⟩ := ih r' ha.2 ha'.2 h.2
      exact ⟨by rw [h.1, e1], e2⟩

theorem jsJoin_singleton (sep x : String) : jsJoin sep [x] = x := rfl

theorem commaSep_data : (", " : String).data = [',', ' '] := rfl

theorem jsJoin_params_inj (ps : List String) :
    ∀ qs : List String, (∀ p ∈ ps, paramOk p) → (∀ q ∈ qs, paramOk q) →
      (jsJoin ", " ps).data = (jsJoin ", " qs).data → ps = qs := by
  induction ps with
  | nil =>
    intro qs _ hq h
    cases qs with
    | nil => rfl
    | cons q qs' =>
      obtain ⟨t, ht⟩ := jsJoin_cons_data ", " q qs'
      rw [ht] at h
      have : q.data = [] := by
        have h' : q.data ++ t = [] := h.symm
        exact (List.append_eq_nil.mp h').1
      exact absurd this (hq q (List.mem_cons_self _ _)).1
  | cons p ps' ih =>
    intro qs hp hq h
    have hpOk := hp p (List.mem_cons_self _ _)
    cases qs with
    | nil =>
      obtain ⟨t, ht⟩ := jsJoin_cons_data ", " p ps'
      rw [ht] at h
      have h' : p.data ++ t = [] := h
      exact absurd (List.append_eq_nil.mp h').1 hpOk.1
    | cons q qs' =>
      have hqOk := hq q (List.mem_cons_self _ _)
      cases ps' with
      | nil =>
        cases qs' with
        | nil =>
          rw [jsJoin_singleton, jsJoin_singleton] at h
          rw [String.ext_iff.mpr h]
        | cons q2 r' =>
          rw [jsJoin_singleton, jsJoin_cons_cons_data, commaSep_data] at h
          exact absurd (by rw [h]; simp) hpOk.2.1
      | cons p2 r =>
        cases qs' with
        | nil =>
          rw [jsJoin_singleton, jsJoin_cons_cons_data, commaSep_data] at h
          exact absurd (by rw [← h]; simp) hqOk.2.1
        | cons q2 r' =>
          rw [jsJoin_cons_cons_data, jsJoin_cons_cons_data, commaSep_data] at h
          simp only [List.cons_append, List.nil_append] at h
          obtain ⟨e1, e2⟩ := split_at_char ',' _ _ _ _ hpOk.2.1 hqOk.2.1 h
          simp only [List.cons.injEq, true_and] at e2
          have := ih (q2 :: r') (fun x hx => hp x (List.mem_cons_of_mem _ hx))
            (fun x hx => hq x (List.mem_cons_of_mem _ hx)) e2
          rw [String.ext_iff.mpr e1, this]

theorem closing_not_mem_join (ps : List String) (h : ∀ p ∈ ps, paramOk p) :
    ')' ∉ (jsJoin ", " ps).data := by
  intro hm
  obtain ⟨p, hp, hc⟩ := mem_params_of_mem_join _ _ hm (by decide) (by decide)
  exact (h p hp).2.2 hc

/-- One rendered record followed by anything determines the record's name and parameter
list and what follows. -/
theorem renderFn_step (f g : FunctionRecord) (X Y : List Char) (hf : recordOk f)
    (hg : recordOk g) (h : (renderFn f).data ++ X = (renderFn g).data ++ Y) :
    signature f = signature g ∧ X = Y := by
  rw [renderFn_data, renderFn_data] at h
  simp only [List.append_assoc, List.cons_append, List.nil_append] at h
  obtain ⟨e1, e2⟩ := split_at_char '(' _ _ _ _ hf.1 hg.1 h
  obtain ⟨e3, e4⟩ := split_at_char ')' _ _ _ _ (closing_not_mem_join _ hf.2)
    (closing_not_mem_join _ hg.2) e2
  have hp := jsJoin_params_inj _ _ hf.2 hg.2 e3
  exact ⟨by unfold signature; rw [String.ext_iff.mpr e1, hp], e4⟩

/-- One rendered modified entry followed by anything determines the entry and what
follows. -/
theorem renderModified_step (e e' : ModifiedEntry) (X Y : List Char) (he : entryOk e)
    (he' : entryOk e') (h : (renderModified e).data ++ X = (renderModified e').data ++ Y) :
    id e = id e' ∧ X = Y := by
  rw [renderModified_data, renderModified_data] at h
  simp only [List.append_assoc, List.cons_append, List.nil_append] at h
  obtain ⟨e1, e2⟩ := split_at_char '(' _ _ _ _ he.1 he'.1 h
  obtain ⟨e3, e4⟩ := split_at_char ')' _ _ _ _ (closing_not_mem_join _ he.2.1)
    (closing_not_mem_join _ he'.2.1) e2
  simp only [List.cons.injEq, true_and] at e4
  obtain ⟨-, e5⟩ := split_at_char '(' _ _ _ _ he.1 he'.1 e4
  obtain ⟨e6, e7⟩ := split_at_char ')' _ _ _ _ (closing_not_mem_join _ he.2.2)
    (closing_not_mem_join _ he'.2.2) e5
  have hp := jsJoin_params_inj _ _ he.2.1 he'.2.1 e3
  have hq := jsJoin_params_inj _ _ he.2.2 he'.2.2 e6
  obtain ⟨n, o, w⟩ := e
  obtain ⟨n', o', w'⟩ := e'
  simp only at e1 hp hq
  simp only [id, ModifiedEntry.mk.injEq]
  exact ⟨⟨String.ext_iff.mpr e1, hp, hq⟩, e7⟩

/-- A comma-joined list of renderings followed by a text that does not start with a comma
determines, entry by entry, what the renderings determine, and the text that follows. -/
theorem joined_inj {α κ : Type} (ρ : α → String) (key : α → κ) (ok : α → Prop)
    (step : ∀ a b X Y, ok a → ok b → (ρ a).data ++ X = (ρ b).data ++ Y → key a = key b ∧ X = Y)
    (fs : List α) :
    ∀ (f g : α) (gs : List α) (t1 t2 : List Char),
      (∀ x ∈ f :: fs, ok x) → (∀ x ∈ g :: gs, ok x) →
      t1.head? ≠ some ',' → t2.head? ≠ some ',' →
      (jsJoin ", " ((f :: fs).map ρ)).data ++ t1 = (jsJoin ", " ((g :: gs).map ρ)).data ++ t2 →
      (f :: fs).map key = (g :: gs).map key ∧ t1 = t2 := by
  induction fs with
  | nil =>
    intro f g gs t1 t2 hf hg h1 h2 h
    have hfo := hf f (List.mem_cons_self _ _)
    have hgo := hg g (List.mem_cons_self _ _)
    cases gs with
    | nil =>
      simp only [List.map_cons, List.map_nil, jsJoin_singleton] at h
      obtain ⟨hk, ht⟩ := step f g t1 t2 hfo hgo h
      exact ⟨by simp [hk], ht⟩
    | cons g2 gs' =>
      simp only [List.map_cons, List.map_nil, jsJoin_singleton] at h
      rw [jsJoin_cons_cons_data, commaSep_data, List.append_assoc] at h
      obtain ⟨-, ht⟩ := step f g _ _ hfo hgo h
      rw [ht] at h1
      simp at h1
  | cons f2 fs' ih =>
    intro f g gs t1 t2 hf hg h1 h2 h
    have hfo := hf f (List.mem_cons_self _ _)
    have hgo := hg g (List.mem_cons_self _ _)
    cases gs with
    | nil =>
      simp only [List.map_cons, List.map_nil, jsJoin_singleton] at h
      rw [jsJoin_cons_cons_data, commaSep_data, List.append_assoc] at h
      obtain ⟨-, ht⟩ := step f g _ _ hfo hgo h
      rw [← ht] at h2
      simp at h2
    | cons g2 gs' =>
      simp only [List.map_cons] at h
      rw [jsJoin_cons_cons_data, jsJoin_cons_cons_data, commaSep_data] at h
      simp only [List.append_assoc] at h
      obtain ⟨hk, hX⟩ := step f g _ _ hfo hgo h
      simp only [List.cons_append, List.nil_append, List.cons.injEq, true_and] at hX
      have hrec := ih f2 g2 gs' t1 t2 (fun x hx => hf x (List.mem_cons_of_mem _ hx))
        (fun x hx => hg x (List.mem_cons_of_mem _ hx)) h1 h2
        (by simpa only [List.map_cons] using hX)
      have e := hrec.1
      simp only [List.map_cons] at e ⊢
      exact ⟨by rw [hk, e], hrec.2⟩

theorem modifiedTail_head (c : ChangeSet) : (modifiedTail c).head? ≠ some ',' := by
  unfold modifiedTail
  split
  · simp
  · simp

theorem removedTail_head (c : ChangeSet) : (removedTail c).head? ≠ some ',' := by
  unfold removedTail
  split
  · exact modifiedTail_head c
  · simp

theorem formatSummary_data (c : ChangeSet) :
    (formatSummary c).data =
      if c.added ≠ [] then (addedLine c).data ++ removedTail c
      else if c.removed ≠ [] then (removedLine c).data ++ modifiedTail c
      else if c.modified ≠ [] then (modifiedLine c).data
      else noChangesSentence.data := by
  rw [formatSummary_eq]
  obtain ⟨a, r, m⟩ := c
  cases a <;> cases r <;> cases m <;>
    simp [expectedLines, bucketLines, removedTail, modifiedTail, jsJoin, String.data_append]

theorem modifiedLine_data (c : ChangeSet) :
    (modifiedLine c).data =
      modifiedMarker.data ++ (jsJoin ", " (c.modified.map renderModified)).data := by
  unfold modifiedLine
  rw [String.data_append]

theorem removedLine_data (c : ChangeSet) :
    (removedLine c).data =
      removedMarker.data ++ (jsJoin ", " (c.removed.map renderFn)).data := by
  unfold removedLine
  rw [String.data_append]

theorem addedLine_data (c : ChangeSet) :
    (addedLine c).data =
      addedMarker.data ++ (jsJoin ", " (c.added.map renderFn)).data := by
  unfold addedLine
  rw [String.data_append]

theorem modifiedTail_cases (c : ChangeSet) :
    modifiedTail c = [] ∨ ∃ y, modifiedTail c = '\n' :: (modifiedMarker.data ++ y) := by
  unfold modifiedTail
  split
  · exact Or.inl rfl
  · exact Or.inr ⟨_, by rw [modifiedLine_data]⟩

/-- The text after the `removed` line determines the `modified` bucket. -/
theorem modifiedTail_inj (c1 c2 : ChangeSet) (h1 : delimiterFree c1) (h2 : delimiterFree c2)
    (h : modifiedTail c1 = modifiedTail c2) : c1.modified = c2.modified := by
  unfold modifiedTail at h
  rw [modifiedLine_data, modifiedLine_data] at h
  cases hm1 : c1.modified with
  | nil =>
    cases hm2 : c2.modified with
    | nil => rfl
    | cons e2 r2 => simp [hm1, hm2] at h
  | cons e1 r1 =>
    cases hm2 : c2.modified with
    | nil => simp [hm1, hm2] at h
    | cons e2 r2 =>
      simp only [hm1, hm2, reduceCtorEq, if_false, List.cons.injEq, true_and] at h
      have h' := List.append_cancel_left h
      have hj := joined_inj renderModified id entryOk renderModified_step r1 e1 e2 r2 [] []
        (fun x hx => h1.2.2 x (hm1 ▸ hx)) (fun x hx => h2.2.2 x (hm2 ▸ hx))
        (by simp) (by simp) (by rw [List.append_nil, List.append_nil]; exact h')
      simpa using hj.1

/-- The text after the `added` line determines the `removed` and `modified` buckets. -/
theorem removedTail_inj (c1 c2 : ChangeSet) (h1 : delimiterFree c1) (h2 : delimiterFree c2)
    (h : removedTail c1 = removedTail c2) :
    c1.removed.map signature = c2.removed.map signature ∧ c1.modified = c2.modified := by
  have hmark : ∀ (x y : List Char), modifiedMarker.data ++ x ≠ removedMarker.data ++ y := by
    intro x y hxy
    have : (modifiedMarker.data ++ x).head? = (removedMarker.data ++ y).head? := by rw [hxy]
    have hm : modifiedMarker.data = '✏' :: modifiedMarker.data.tail := by decide
    have hr : removedMarker.data = '❌' :: removedMarker.data.tail := by decide
    rw [hm, hr] at this
    simp only [List.cons_append, List.head?_cons, Option.some.injEq] at this
    exact absurd this (by decide)
  unfold removedTail at h
  cases hr1 : c1.removed with
  | nil =>
    cases hr2 : c2.removed with
    | nil =>
      simp only [hr1, hr2, if_true] at h
      exact ⟨rfl, modifiedTail_inj c1 c2 h1 h2 h⟩
    | cons g r2 =>
      simp only [hr1, hr2, reduceCtorEq, if_true, if_false] at h
      rcases modifiedTail_cases c1 with hc | ⟨y, hc⟩
      · rw [hc] at h
        exact absurd h (by simp)
      · rw [hc, removedLine_data, List.append_assoc] at h
        simp only [List.cons.injEq, true_and] at h
        exact absurd h (hmark _ _)
  | cons f r1 =>
    cases hr2 : c2.removed with
    | nil =>
      simp only [hr1, hr2, reduceCtorEq, if_true, if_false] at h
      rcases modifiedTail_cases c2 with hc | ⟨y, hc⟩
      · rw [hc] at h
        exact absurd h (by simp)
      · rw [hc, removedLine_data, List.append_assoc] at h
        simp only [List.cons.injEq, true_and] at h
        exact absurd h.symm (hmark _ _)
    | cons g r2 =>
      simp only [hr1, hr2, reduceCtorEq, if_false, List.cons.injEq, true_and] at h
      rw [removedLine_data, removedLine_data, List.append_assoc, List.append_assoc] at h
      have h' := List.append_cancel_left h
      rw [hr1, hr2] at h'
      have hj := joined_inj renderFn signature recordOk renderFn_step r1 f g r2 _ _
        (fun x hx => h1.2.1 x (hr1 ▸ hx)) (fun x hx => h2.2.1 x (hr2 ▸ hx))
        (modifiedTail_head c1) (modifiedTail_head c2) h'
      exact ⟨hj.1, modifiedTail_inj c1 c2 h1 h2 hj.2⟩

theorem firstChar_eq_added_iff (c : ChangeSet) :
    firstChar (formatSummary c) = some '✅' ↔ c.added ≠ [] := by
  rw [firstChar_formatSummary]
  by_cases ha : c.added = []
  · by_cases hr : c.removed = []
    · by_cases hm : c.modified = []
      · simp only [ha, hr, hm, ne_eq, not_true_eq_false, if_false, Option.some.injEq, iff_false]
        decide
      · simp only [ha, hr, hm, ne_eq, not_true_eq_false, not_false_eq_true, if_true, if_false,
          Option.some.injEq, iff_false]
        decide
    · simp only [ha, hr, ne_eq, not_true_eq_false, not_false_eq_true, if_true, if_false,
        Option.some.injEq, iff_false]
      decide
  · simp [ha]

theorem firstChar_eq_sentence_iff (c : ChangeSet) :
    firstChar (formatSummary c) = some 'N' ↔ (c.removed = [] ∧ c.modified = []) ∧ c.added = [] := by
  rw [firstChar_formatSummary]
  by_cases ha : c.added = []
  · by_cases hr : c.removed = []
    · by_cases hm : c.modified = []
      · simp [ha, hr, hm]
      · simp only [ha, hr, hm, ne_eq, not_true_eq_false, not_false_eq_true, if_true, if_false,
          Option.some.injEq, and_false, false_and, iff_false]
        decide
    · simp only [ha, hr, ne_eq, not_true_eq_false, not_false_eq_true, if_true, if_false,
        Option.some.injEq, false_and, iff_false]
      decide
  · simp only [ha, ne_eq, not_false_eq_true, if_true, Option.some.injEq, and_false, iff_false]
    decide

theorem removedTail_of_added_nil (c : ChangeSet) (hA : c.added = [])
    (hE : ¬ (c.removed = [] ∧ c.modified = [])) :
    removedTail c = '\n' :: (formatSummary c).data := by
  rw [formatSummary_data]
  unfold removedTail modifiedTail
  by_cases hr : c.removed = []
  · have hm : ¬ c.modified = [] := fun hm => hE ⟨hr, hm⟩
    simp [hA, hr, hm]
  · simp [hA, hr]

/-- A summary of delimiter-free change sets determines the names and parameter lists of
the three buckets. -/
theorem formatSummary_inj (c1 c2 : ChangeSet) (h1 : delimiterFree c1) (h2 : delimiterFree c2)
    (h : formatSummary c1 = formatSummary c2) :
    c1.added.map signature = c2.added.map signature ∧
    c1.removed.map signature = c2.removed.map signature ∧
    c1.modified = c2.modified := by
  have hA : c1.added ≠ [] ↔ c2.added ≠ [] := by
    rw [← firstChar_eq_added_iff, ← firstChar_eq_added_iff, h]
  have hN : ((c1.removed = [] ∧ c1.modified = []) ∧ c1.added = []) ↔
      ((c2.removed = [] ∧ c2.modified = []) ∧ c2.added = []) := by
    rw [← firstChar_eq_sentence_iff, ← firstChar_eq_sentence_iff, h]
  by_cases a1 : c1.added = []
  · have a2 : c2.added = [] := by
      by_contra hne
      exact (hA.mpr hne) a1
    by_cases e1 : c1.removed = [] ∧ c1.modified = []
    · have e2 := (hN.mp ⟨e1, a1⟩).1
      exact ⟨by rw [a1, a2], by rw [e1.1, e2.1], by rw [e1.2, e2.2]⟩
    · have e2 : ¬ (c2.removed = [] ∧ c2.modified = []) :=
        fun e2 => e1 (hN.mpr ⟨e2, a2⟩).1
      have ht : removedTail c1 = removedTail c2 := by
        rw [removedTail_of_added_nil c1 a1 e1, removedTail_of_added_nil c2 a2 e2, h]
      exact ⟨by rw [a1, a2], removedTail_inj c1 c2 h1 h2 ht⟩
  · have a2 : c2.added ≠ [] := hA.mp a1
    have hd : (formatSummary c1).data = (formatSummary c2).data := by rw [h]
    rw [formatSummary_data, formatSummary_data, if_pos a1, if_pos a2, addedLine_data,
      addedLine_data, List.append_assoc, List.append_assoc] at hd
    have hd' := List.append_cancel_left hd
    cases hl1 : c1.added with
    | nil => exact absurd hl1 a1
    | cons f r1 =>
      cases hl2 : c2.added with
      | nil => exact absurd hl2 a2
      | cons g r2 =>
        rw [hl1, hl2] at hd'
        have hj := joined_inj renderFn signature recordOk renderFn_step r1 f g r2 _ _
          (fun x hx => h1.1 x (hl1 ▸ hx)) (fun x hx => h2.1 x (hl2 ▸ hx))
          (removedTail_head c1) (removedTail_head c2) hd'
        exact ⟨hj.1, removedTail_inj c1 c2 h1 h2 hj.2⟩

/-- C9 as stated fails: the added function `f` with the single parameter string `"a, b"`
and the added function `f` with the two parameter strings `"a"`, `"b"` have the same
summary, `✅ Added: f(a, b)`. -/
theorem formatSummary_ambiguous :
    ambiguousOne.added.map signature ≠ ambiguousTwo.added.map signature ∧
    formatSummary ambiguousOne = formatSummary ambiguousTwo ∧
    formatSummary ambiguousOne = "✅ Added: f(a, b)" := by
  decide

/-- C9, amended. For change sets whose names hold no opening bracket and whose parameter
strings are non-empty and hold neither a comma nor a closing bracket, `formatSummary` is
unambiguous: two such change sets that differ in the names or parameter lists of their
added, removed or modified entries have different summaries. -/
theorem formatSummary_unambiguous (c1 c2 : ChangeSet)
    (h1 : delimiterFree c1) (h2 : delimiterFree c2)
    (hd : c1.added.map signature ≠ c2.added.map signature ∨
          c1.removed.map signature ≠ c2.removed.map signature ∨
          c1.modified ≠ c2.modified) :
    formatSummary c1 ≠ formatSummary c2 := by
  intro h
  obtain ⟨ea, er, em⟩ := formatSummary_inj c1 c2 h1 h2 h
  rcases hd with hd | hd | hd
  · exact hd ea
  · exact hd er
  · exact hd em

/-- Witness of C9 (amended): the change set of the sample files and the one of the
JSDoc example have different summaries. -/
theorem formatSummary_unambiguous_witness :
    delimiterFree sampleChanges ∧ delimiterFree docChanges ∧
    sampleChanges.removed.map signature ≠ docChanges.removed.map signature ∧
    formatSummary sampleChanges ≠ formatSummary docChanges :=
  ⟨by simp [delimiterFree, recordOk, entryOk, nameOk, paramOk, sampleChanges],
   by simp [delimiterFree, recordOk, entryOk, nameOk, paramOk, docChanges],
   by decide,
   formatSummary_unambiguous sampleChanges docChanges
     (by simp [delimiterFree, recordOk, entryOk, nameOk, paramOk, sampleChanges])
     (by simp [delimiterFree, recordOk, entryOk, nameOk, paramOk, docChanges])
     (Or.inr (Or.inl (by decide)))⟩

/-! ## Parameter lists that differ but join alike -/

/-- C10 as stated fails. `foo` occurs once on each side, its parameter lists
`["a, b"]` and `["a", "b"]` differ (in length already), yet both join to `"a, b"` and
`detectChanges` reports nothing: `foo` is not in `modified`. -/
theorem detectChanges_misses_changed_params :
    (commaOld.map FunctionRecord.name).Nodup ∧ (commaNew.map FunctionRecord.name).Nodup ∧
    commaOld.map FunctionRecord.name = ["foo"] ∧ commaNew.map FunctionRecord.name = ["foo"] ∧
    commaOld.map FunctionRecord.params ≠ commaNew.map FunctionRecord.params ∧
    jsJoin ", " ["a, b"] = jsJoin ", " ["a", "b"] ∧
    detectChanges commaOld commaNew = { added := [], removed := [], modified := [] } := by
  decide

/-! ## Repeated names: the last occurrence wins -/

section LastWins

variable {V : Type}

theorem mapGet_mapSet (m : List (String × V)) (k : String) (v : V) (x : String) :
    mapGet (mapSet m k v) x = if k = x then some v else mapGet m x := by
  induction m with
  | nil => simp [mapSet, mapGet]
  | cons e rest ih =>
    obtain ⟨k', v'⟩ := e
    by_cases hk : k' = k
    · subst hk
      by_cases hx : k' = x
      · simp [mapSet, mapGet, hx]
      · simp [mapSet, mapGet, hx]
    · by_cases hx : k' = x
      · subst hx
        have hkx : ¬ k = k' := fun hh => hk hh.symm
        simp [mapSet, mapGet, hk, hkx]
      · simp [mapSet, mapGet, hk, hx, ih]

theorem mapGet_append (a b : List (String × V)) (x : String) :
    mapGet (a ++ b) x = (mapGet a x).or (mapGet b x) := by
  induction a with
  | nil => simp [mapGet]
  | cons e rest ih =>
    obtain ⟨k', v'⟩ := e
    by_cases hx : k' = x
    · simp [mapGet, hx]
    · simp [mapGet, hx, ih]

/-- After the fold behind `new Map(entries)` a key holds the value of the last entry that
bears it, or what the starting map held. -/
theorem foldl_mapSet_get (es m : List (String × V)) (x : String) :
    mapGet (es.foldl (fun m e => mapSet m e.1 e.2) m) x =
      (mapGet es.reverse x).or (mapGet m x) := by
  induction es generalizing m with
  | nil => simp [mapGet]
  | cons e rest ih =>
    rw [List.foldl_cons, ih, mapGet_mapSet, List.reverse_cons, mapGet_append]
    by_cases hx : e.1 = x
    · cases hr : mapGet rest.reverse x <;> simp [mapGet, hx]
    · cases hr : mapGet rest.reverse x <;> simp [mapGet, hx]

theorem mem_firstOccurrences (l : List String) (x : String) :
    x ∈ firstOccurrences l ↔ x ∈ l := by
  induction l with
  | nil => simp [firstOccurrences]
  | cons n rest ih =>
    simp only [firstOccurrences, List.mem_cons, List.mem_filter, ih, ne_eq,
      decide_eq_true_eq]
    constructor
    · rintro (h | h)
      · exact Or.inl h
      · exact Or.inr h.1
    · rintro (h | h)
      · exact Or.inl h
      · by_cases hx : x = n
        · exact Or.inl hx
        · exact Or.inr ⟨h, hx⟩

/-- The fold behind `new Map(entries)` appends the fresh keys at their first
occurrence. -/
theorem foldl_mapSet_keys_eq (es m : List (String × V)) :
    mapKeys (es.foldl (fun m e => mapSet m e.1 e.2) m) =
      mapKeys m ++ (firstOccurrences (mapKeys es)).filter (fun k => decide (k ∉ mapKeys m)) := by
  induction es generalizing m with
  | nil => simp [mapKeys, firstOccurrences]
  | cons e rest ih =>
    rw [List.foldl_cons, ih, mapKeys_mapSet]
    have hcons : mapKeys (e :: rest) = e.1 :: mapKeys rest := rfl
    rw [hcons]
    simp only [firstOccurrences]
    by_cases hk : e.1 ∈ mapKeys m
    · rw [if_pos hk, List.filter_cons]
      simp only [hk, not_true_eq_false, decide_False, Bool.false_eq_true, if_false]
      rw [List.filter_filter]
      congr 1
      apply List.filter_congr
      intro x _
      by_cases hx : x ∈ mapKeys m
      · simp [hx]
      · have hne : x ≠ e.1 := fun hh => hx (hh ▸ hk)
        simp [hx, hne]
    · rw [if_neg hk, List.filter_cons]
      simp only [hk, not_false_eq_true, decide_True, if_true]
      rw [List.filter_filter, List.append_assoc, List.singleton_append]
      congr 2
      apply List.filter_congr
      intro x _
      by_cases hx : x ∈ mapKeys m
      · simp [hx]
      · by_cases hne : x = e.1
        · simp [hx, hne]
        · simp [hx, hne]

/-- A map is its keys, in order, each with the value `get` returns. -/
theorem map_eq_filterMap_keys (m : List (String × V)) (h : (mapKeys m).Nodup) :
    m = (mapKeys m).filterMap (fun k => (mapGet m k).map (fun v => (k, v))) := by
  induction m with
  | nil => rfl
  | cons e rest ih =>
    obtain ⟨k, v⟩ := e
    have hcons : mapKeys ((k, v) :: rest) = k :: mapKeys rest := rfl
    rw [hcons] at h ⊢
    rw [List.nodup_cons] at h
    rw [List.filterMap_cons]
    simp only [mapGet, if_true, Option.map_some']
    congr 1
    conv_lhs => rw [ih h.2]
    apply List.filterMap_congr
    intro x hx
    have hne : ¬ k = x := fun hh => h.1 (hh ▸ hx)
    simp [mapGet, hne]

theorem jsMap_eq_filterMap (es : List (String × V)) :
    jsMap es = (firstOccurrences (mapKeys es)).filterMap
      (fun k => (mapGet es.reverse k).map (fun v => (k, v))) := by
  have hk : mapKeys (jsMap es) = firstOccurrences (mapKeys es) := by
    unfold jsMap
    rw [foldl_mapSet_keys_eq]
    simp [mapKeys]
  have hg : ∀ x, mapGet (jsMap es) x = mapGet es.reverse x := by
    intro x
    unfold jsMap
    rw [foldl_mapSet_get]
    simp [mapGet]
  have h := map_eq_filterMap_keys (jsMap es) (nodup_mapKeys_jsMap es)
  rw [hk] at h
  rw [h]
  apply List.filterMap_congr
  intro x _
  rw [hg]

end LastWins

theorem mapGet_nameEntries_find (l : List FunctionRecord) (k : String) :
    mapGet (nameEntries l) k = l.find? (fun f => decide (f.name = k)) := by
  induction l with
  | nil => rfl
  | cons f rest ih =>
    unfold nameEntries at ih ⊢
    by_cases hk : f.name = k
    · simp [mapGet, hk]
    · simp [mapGet, hk, ih, List.find?_cons]

theorem lastRecord_name (fns : List FunctionRecord) (n : String) (f : FunctionRecord)
    (h : lastRecord fns n = some f) : f.name = n := by
  unfold lastRecord at h
  simpa using List.find?_some h

/-- The map `new Map(fns.map((fn) => [fn.name, fn]))` is the keyed form of the input with
repeated names resolved. -/
theorem jsMap_nameEntries_eq_lastWins (fns : List FunctionRecord) :
    jsMap (nameEntries fns) = nameEntries (lastWins fns) := by
  rw [jsMap_eq_filterMap, mapKeys_nameEntries]
  unfold lastWins
  conv_rhs => unfold nameEntries
  rw [List.map_filterMap]
  apply List.filterMap_congr
  intro k _
  have hrev : (nameEntries fns).reverse = nameEntries fns.reverse := by
    unfold nameEntries
    rw [List.map_reverse]
  rw [hrev, mapGet_nameEntries_find]
  cases hl : lastRecord fns k with
  | none =>
    unfold lastRecord at hl
    rw [hl]
    rfl
  | some f =>
    have hn := lastRecord_name fns k f hl
    unfold lastRecord at hl
    rw [hl]
    simp [hn]

theorem nodup_lastWins (fns : List FunctionRecord) :
    ((lastWins fns).map FunctionRecord.name).Nodup := by
  rw [← mapKeys_nameEntries, ← jsMap_nameEntries_eq_lastWins]
  exact nodup_mapKeys_jsMap _

theorem jsMap_nameEntries_lastWins (fns : List FunctionRecord) :
    jsMap (nameEntries (lastWins fns)) = jsMap (nameEntries fns) := by
  rw [jsMap_nameEntries_of_nodup _ (nodup_lastWins fns), jsMap_nameEntries_eq_lastWins]

/-- The result of `detectChanges` depends on its inputs through the two maps only. -/
theorem detectChanges_congr (o o' n n' : List FunctionRecord)
    (ho : jsMap (nameEntries o) = jsMap (nameEntries o'))
    (hn : jsMap (nameEntries n) = jsMap (nameEntries n')) :
    detectChanges o n = detectChanges o' n' := by
  rw [detectChanges_eq, detectChanges_eq, ho, hn]

theorem lastWins_of_nodup (fns : List FunctionRecord)
    (h : (fns.map FunctionRecord.name).Nodup) : lastWins fns = fns := by
  have e := jsMap_nameEntries_eq_lastWins fns
  rw [jsMap_nameEntries_of_nodup fns h] at e
  have e' := congrArg (List.map Prod.snd) e
  unfold nameEntries at e'
  simp only [List.map_map] at e'
  have hid : (Prod.snd ∘ fun fn : FunctionRecord => (fn.name, fn)) = id := rfl
  rw [hid, List.map_id, List.map_id] at e'
  exact e'.symm

/-- With unique names on the new side, `added` is a filter of the new input. -/
theorem added_of_nodup (o n : List FunctionRecord) (hn : (n.map FunctionRecord.name).Nodup) :
    (detectChanges o n).added =
      n.filter (fun f => decide (f.name ∉ o.map FunctionRecord.name)) := by
  rw [detectChanges_eq, jsMap_nameEntries_of_nodup n hn]
  simp only [nameEntries, List.filter_map, List.map_map]
  have hid : (Prod.snd ∘ fun fn : FunctionRecord => (fn.name, fn)) = id := rfl
  rw [hid, List.map_id]
  apply List.filter_congr
  intro f _
  simp only [Function.comp_apply]
  by_cases hk : f.name ∈ o.map FunctionRecord.name
  · have h1 := (mapHas_iff _ _).mpr ((mem_keys_jsMap_nameEntries o f.name).mpr hk)
    unfold nameEntries at h1
    simp [h1, hk]
  · have h1 := (mapHas_false_iff _ _).mpr
      (fun hh => hk ((mem_keys_jsMap_nameEntries o f.name).mp hh))
    unfold nameEntries at h1
    simp [h1, hk]

/-- With unique names on the old side, `removed` is a filter of the old input. -/
theorem removed_of_nodup (o n : List FunctionRecord) (ho : (o.map FunctionRecord.name).Nodup) :
    (detectChanges o n).removed =
      o.filter (fun f => decide (f.name ∉ n.map FunctionRecord.name)) := by
  have e : (detectChanges o n).removed = (detectChanges n o).added := by
    rw [detectChanges_eq o n, detectChanges_eq n o]
  rw [e, added_of_nodup n o ho]

theorem filter_name_singleton (l : List FunctionRecord) (f : FunctionRecord)
    (hn : (l.map FunctionRecord.name).Nodup) (hf : f ∈ l) :
    l.filter (fun g => decide (g.name = f.name)) = [f] := by
  induction l with
  | nil => simp at hf
  | cons a rest ih =>
    simp only [List.map_cons, List.nodup_cons] at hn
    rcases List.mem_cons.mp hf with h | h
    · subst h
      rw [List.filter_cons]
      simp only [decide_True, if_true, List.cons.injEq, true_and]
      rw [List.filter_eq_nil_iff]
      intro g hg
      simp only [decide_eq_true_eq]
      intro hgn
      exact hn.1 (hgn ▸ List.mem_map.mpr ⟨g, hg, rfl⟩)
    · have hne : ¬ a.name = f.name := by
        intro hh
        exact hn.1 (hh ▸ List.mem_map.mpr ⟨f, h, rfl⟩)
      rw [List.filter_cons]
      simp only [hne, decide_False, Bool.false_eq_true, if_false]
      exact ih hn.2 h

theorem lastRecord_isSome (fns : List FunctionRecord) (n : String)
    (h : n ∈ fns.map FunctionRecord.name) : ∃ f, lastRecord fns n = some f := by
  obtain ⟨g, hg, hgn⟩ := List.mem_map.mp h
  unfold lastRecord
  cases hfind : fns.reverse.find? (fun f => decide (f.name = n)) with
  | some f => exact ⟨f, rfl⟩
  | none =>
    rw [List.find?_eq_none] at hfind
    have := hfind g (List.mem_reverse.mpr hg)
    simp [hgn] at this

theorem mem_lastWins (fns : List FunctionRecord) (n : String) (f : FunctionRecord)
    (hn : n ∈ fns.map FunctionRecord.name) (hf : lastRecord fns n = some f) :
    f ∈ lastWins fns := by
  unfold lastWins
  exact List.mem_filterMap.mpr ⟨n, (mem_firstOccurrences _ _).mpr hn, hf⟩

/-- C11. Repeated names: `detectChanges` gives the same result when, on either side or on
both, every earlier occurrence of a repeated name is deleted and the surviving last record
stands where the name first occurred. In particular a name of `newFunctions` (repeated or
not) that is absent from `oldFunctions` has exactly one `added` entry, the last record of
`newFunctions` with that name. -/
theorem detectChanges_lastWins (oldFunctions newFunctions : List FunctionRecord) :
    detectChanges oldFunctions newFunctions =
      detectChanges (lastWins oldFunctions) newFunctions ∧
    detectChanges oldFunctions newFunctions =
      detectChanges oldFunctions (lastWins newFunctions) ∧
    detectChanges oldFunctions newFunctions =
      detectChanges (lastWins oldFunctions) (lastWins newFunctions) ∧
    (∀ n, n ∈ newFunctions.map FunctionRecord.name →
      n ∉ oldFunctions.map FunctionRecord.name →
      ∃ f, lastRecord newFunctions n = some f ∧
        (detectChanges oldFunctions newFunctions).added.filter
          (fun g => decide (g.name = n)) = [f]) := by
  have ho := (jsMap_nameEntries_lastWins oldFunctions).symm
  have hn := (jsMap_nameEntries_lastWins newFunctions).symm
  refine ⟨detectChanges_congr _ _ _ _ ho rfl, detectChanges_congr _ _ _ _ rfl hn,
    detectChanges_congr _ _ _ _ ho hn, ?_⟩
  intro n hmem hnot
  obtain ⟨f, hf⟩ := lastRecord_isSome newFunctions n hmem
  refine ⟨f, hf, ?_⟩
  have hname := lastRecord_name newFunctions n f hf
  rw [detectChanges_congr oldFunctions oldFunctions newFunctions (lastWins newFunctions) rfl hn,
    added_of_nodup _ _ (nodup_lastWins newFunctions), List.filter_filter]
  rw [← filter_name_singleton (lastWins newFunctions) f (nodup_lastWins newFunctions)
    (mem_lastWins newFunctions n f hmem hf)]
  apply List.filter_congr
  intro g _
  rw [hname]
  by_cases hg : g.name = n
  · simp [hg, hnot]
  · simp [hg]

/-- Witness of C11: `helper` is declared twice in the new snapshot, around `run`, and is
absent from the old one; the one `added` entry for it is its second declaration. -/
theorem detectChanges_lastWins_witness :
    "helper" ∈ repeatedNew.map FunctionRecord.name ∧
    "helper" ∉ docOld.map FunctionRecord.name ∧
    lastWins repeatedNew =
      [{ name := "helper", params := ["x", "y"], type := "ArrowFunctionExpression" },
       { name := "run", params := [], type := "FunctionDeclaration" }] ∧
    lastWins repeatedOld = [{ name := "run", params := [], type := "FunctionDeclaration" }] ∧
    detectChanges repeatedOld repeatedNew =
      detectChanges (lastWins repeatedOld) (lastWins repeatedNew) ∧
    ∃ f, lastRecord repeatedNew "helper" = some f ∧
      (detectChanges docOld repeatedNew).added.filter
        (fun g => decide (g.name = "helper")) = [f] :=
  ⟨by decide, by decide, by decide, by decide,
    (detectChanges_lastWins repeatedOld repeatedNew).2.2.1,
    (detectChanges_lastWins docOld repeatedNew).2.2.2 "helper" (by decide) (by decide)⟩

/-! ## The counts of the server's `stats` -/

theorem length_filterMap_le_filter {α β : Type} (f : α → Option β) (p : α → Bool)
    (l : List α) (h : ∀ x ∈ l, (f x).isSome = true → p x = true) :
    (l.filterMap f).length ≤ (l.filter p).length := by
  induction l with
  | nil => simp
  | cons a rest ih =>
    have ih' := ih (fun x hx => h x (List.mem_cons_of_mem _ hx))
    cases hf : f a with
    | none =>
      rw [List.filterMap_cons_none hf]
      exact Nat.le_trans ih' (List.Sublist.length_le
        (List.Sublist.filter p (List.sublist_cons_self a rest)))
    | some b =>
      have hp : p a = true := h a (List.mem_cons_self _ _) (by rw [hf]; rfl)
      rw [List.filterMap_cons_some hf, List.filter_cons_of_pos hp]
      simp only [List.length_cons]
      omega

/-- With unique names on both sides, as many old names are new names as new names are
old names. -/
theorem commonCount_symm (o n : List FunctionRecord)
    (ho : (o.map FunctionRecord.name).Nodup) (hn : (n.map FunctionRecord.name).Nodup) :
    (o.filter (fun f => decide (f.name ∈ n.map FunctionRecord.name))).length =
      commonCount o n := by
  unfold commonCount
  have e1 : ((o.map FunctionRecord.name).filter
      (fun x => decide (x ∈ n.map FunctionRecord.name))).length =
      (o.filter (fun f => decide (f.name ∈ n.map FunctionRecord.name))).length := by
    rw [List.filter_map, List.length_map]
    rfl
  have e2 : ((n.map FunctionRecord.name).filter
      (fun x => decide (x ∈ o.map FunctionRecord.name))).length =
      (n.filter (fun f => decide (f.name ∈ o.map FunctionRecord.name))).length := by
    rw [List.filter_map, List.length_map]
    rfl
  rw [← e1, ← e2]
  apply List.Perm.length_eq
  rw [List.perm_ext_iff_of_nodup (List.Nodup.filter _ ho) (List.Nodup.filter _ hn)]
  intro a
  simp only [List.mem_filter, decide_eq_true_eq]
  tauto

theorem length_filter_mem_add (l : List FunctionRecord) (names : List String) :
    (l.filter (fun f => decide (f.name ∉ names))).length +
      (l.filter (fun f => decide (f.name ∈ names))).length = l.length := by
  have hsplit := @List.length_eq_length_filter_add FunctionRecord l
    (fun f : FunctionRecord => decide (f.name ∈ names))
  rw [hsplit, Nat.add_comm]
  congr 2
  apply List.filter_congr
  intro f _
  simp

theorem modified_length_le (o n : List FunctionRecord)
    (hn : (n.map FunctionRecord.name).Nodup) :
    (detectChanges o n).modified.length ≤ commonCount o n := by
  rw [detectChanges_eq, jsMap_nameEntries_of_nodup n hn]
  unfold commonCount
  have hle := length_filterMap_le_filter (modifiedOf (jsMap (nameEntries o)))
    (fun e : String × FunctionRecord => decide (e.1 ∈ o.map FunctionRecord.name))
    (nameEntries n) (by
      intro e _ hs
      obtain ⟨x, hx⟩ := Option.isSome_iff_exists.mp hs
      have := (modifiedOf_name _ _ x hx).2
      rw [mem_keys_jsMap_nameEntries] at this
      simpa using this)
  have e : ((nameEntries n).filter
      (fun e : String × FunctionRecord => decide (e.1 ∈ o.map FunctionRecord.name))).length =
      (n.filter (fun f => decide (f.name ∈ o.map FunctionRecord.name))).length := by
    unfold nameEntries
    rw [List.filter_map, List.length_map]
    rfl
  rw [e] at hle
  exact hle

/-- C12. With unique names on each side the counts of the server's `stats` agree: the new
functions that are not added are as many as the old functions that are not removed, both
being the number of names the inputs have in common, and the modified entries are at most
that many. -/
theorem detectChanges_counts (oldFunctions newFunctions : List FunctionRecord)
    (ho : (oldFunctions.map FunctionRecord.name).Nodup)
    (hn : (newFunctions.map FunctionRecord.name).Nodup) :
    (detectChanges oldFunctions newFunctions).added.length ≤ newFunctions.length ∧
    (detectChanges oldFunctions newFunctions).removed.length ≤ oldFunctions.length ∧
    newFunctions.length - (detectChanges oldFunctions newFunctions).added.length =
      oldFunctions.length - (detectChanges oldFunctions newFunctions).removed.length ∧
    newFunctions.length - (detectChanges oldFunctions newFunctions).added.length =
      commonCount oldFunctions newFunctions ∧
    (detectChanges oldFunctions newFunctions).modified.length ≤
      newFunctions.length - (detectChanges oldFunctions newFunctions).added.length := by
  have ha := added_of_nodup oldFunctions newFunctions hn
  have hr := removed_of_nodup oldFunctions newFunctions ho
  have h1 := length_filter_mem_add newFunctions (oldFunctions.map FunctionRecord.name)
  have h2 := length_filter_mem_add oldFunctions (newFunctions.map FunctionRecord.name)
  rw [← ha] at h1
  rw [← hr, commonCount_symm oldFunctions newFunctions ho hn] at h2
  have h3 : (newFunctions.filter
      (fun f => decide (f.name ∈ oldFunctions.map FunctionRecord.name))).length =
      commonCount oldFunctions newFunctions := rfl
  rw [h3] at h1
  have hm := modified_length_le oldFunctions newFunctions hn
  refine ⟨?_, ?_, ?_, ?_, ?_⟩ <;> omega

/-- Witness of C12 on the sample files: 6 − 2 = 5 − 1 = 4 common names, 2 modified. -/
theorem detectChanges_counts_witness :
    (sampleOld.map FunctionRecord.name).Nodup ∧ (sampleNew.map FunctionRecord.name).Nodup ∧
    sampleNew.length - (detectChanges sampleOld sampleNew).added.length = 4 ∧
    sampleOld.length - (detectChanges sampleOld sampleNew).removed.length = 4 ∧
    (detectChanges sampleOld sampleNew).modified.length = 2 ∧
    sampleNew.length - (detectChanges sampleOld sampleNew).added.length =
      sampleOld.length - (detectChanges sampleOld sampleNew).removed.length :=
  ⟨by decide, by decide, by decide, by decide, by decide,
    (detectChanges_counts sampleOld sampleNew (by decide) (by decide)).2.2.1⟩

/-! ## Parameter lists of comma-free strings -/

/-- On lists of non-empty comma-free strings the `", "`-join is one-to-one. -/
theorem jsJoin_inj_of_commaFree (ps : List String) :
    ∀ qs : List String, (∀ p ∈ ps, commaFree p) → (∀ q ∈ qs, commaFree q) →
      jsJoin ", " ps = jsJoin ", " qs → ps = qs := by
  induction ps with
  | nil =>
    intro qs _ hq h
    cases qs with
    | nil => rfl
    | cons q qs' =>
      obtain ⟨t, ht⟩ := jsJoin_cons_data ", " q qs'
      rw [← h] at ht
      have h' : q.data ++ t = [] := ht.symm
      exact absurd (List.append_eq_nil.mp h').1 (hq q (List.mem_cons_self _ _)).1
  | cons p ps' ih =>
    intro qs hp hq h
    have hpOk := hp p (List.mem_cons_self _ _)
    cases qs with
    | nil =>
      obtain ⟨t, ht⟩ := jsJoin_cons_data ", " p ps'
      rw [h] at ht
      have h' : p.data ++ t = [] := ht.symm
      exact absurd (List.append_eq_nil.mp h').1 hpOk.1
    | cons q qs' =>
      have hqOk := hq q (List.mem_cons_self _ _)
      have hd : (jsJoin ", " (p :: ps')).data = (jsJoin ", " (q :: qs')).data := by rw [h]
      cases ps' with
      | nil =>
        cases qs' with
        | nil =>
          rw [jsJoin_singleton, jsJoin_singleton] at h
          rw [h]
        | cons q2 r' =>
          rw [jsJoin_singleton, jsJoin_cons_cons_data, commaSep_data] at hd
          exact absurd (by rw [hd]; simp) hpOk.2
      | cons p2 r =>
        cases qs' with
        | nil =>
          rw [jsJoin_singleton, jsJoin_cons_cons_data, commaSep_data] at hd
          exact absurd (by rw [← hd]; simp) hqOk.2
        | cons q2 r' =>
          rw [jsJoin_cons_cons_data, jsJoin_cons_cons_data, commaSep_data] at hd
          simp only [List.cons_append, List.nil_append] at hd
          obtain ⟨e1, e2⟩ := split_at_char ',' _ _ _ _ hpOk.2 hqOk.2 hd
          simp only [List.cons.injEq, true_and] at e2
          have := ih (q2 :: r') (fun x hx => hp x (List.mem_cons_of_mem _ hx))
            (fun x hx => hq x (List.mem_cons_of_mem _ hx)) (String.ext_iff.mpr e2)
          rw [String.ext_iff.mpr e1, this]

/-- C10, amended. For inputs with unique names on each side, every name that occurs in
both and whose two parameter lists, made of non-empty comma-free strings, differ as
ordered sequences is reported in the `modified` bucket, with the old list as `oldParams`
and the new list as `newParams`. -/
theorem detectChanges_modified_of_params_ne (oldFunctions newFunctions : List FunctionRecord)
    (ho : (oldFunctions.map FunctionRecord.name).Nodup)
    (hn : (newFunctions.map FunctionRecord.name).Nodup)
    (r f : FunctionRecord) (hr : r ∈ oldFunctions) (hf : f ∈ newFunctions)
    (hname : r.name = f.name)
    (hpr : ∀ p ∈ r.params, commaFree p) (hpf : ∀ p ∈ f.params, commaFree p)
    (hne : r.params ≠ f.params) :
    f.name ∈ (detectChanges oldFunctions newFunctions).modified.map ModifiedEntry.name ∧
    { name := f.name, oldParams := r.params, newParams := f.params } ∈
      (detectChanges oldFunctions newFunctions).modified := by
  have hj : jsJoin ", " r.params ≠ jsJoin ", " f.params :=
    fun h => hne (jsJoin_inj_of_commaFree _ _ hpr hpf h)
  have hmem : ({ name := f.name, oldParams := r.params, newParams := f.params } :
      ModifiedEntry) ∈ (detectChanges oldFunctions newFunctions).modified :=
    (modified_of_nodup oldFunctions newFunctions ho hn _).mpr ⟨r, hr, f, hf, hname, hj, rfl⟩
  exact ⟨List.mem_map.mpr ⟨_, hmem, rfl⟩, hmem⟩

/-- Witness of C10 (amended) on the sample files: `greetUser(name)` became
`greetUser(name, greeting)`. -/
theorem detectChanges_modified_of_params_ne_witness :
    (sampleOld.map FunctionRecord.name).Nodup ∧ (sampleNew.map FunctionRecord.name).Nodup ∧
    "greetUser" ∈ (detectChanges sampleOld sampleNew).modified.map ModifiedEntry.name ∧
    ({ name := "greetUser", oldParams := ["name"], newParams := ["name", "greeting"] } :
      ModifiedEntry) ∈ (detectChanges sampleOld sampleNew).modified :=
  ⟨by decide, by decide,
    detectChanges_modified_of_params_ne sampleOld sampleNew (by decide) (by decide)
      { name := "greetUser", params := ["name"], type := "FunctionDeclaration" }
      { name := "greetUser", params := ["name", "greeting"], type := "FunctionDeclaration" }
      (by decide) (by decide) rfl
      (by simp [commaFree]) (by simp [commaFree]) (by decide)⟩

end DocBot
